import Mathlib

/-!
Verification of the RTF list sanitizer (`simplify_rtf.js`).

The script converts Word-generated RTF into a simplified RTF document: it
strips destination and non-content keyword groups, splits the cleaned text
into paragraphs, classifies list labels, reduces each paragraph body to plain
ASCII text with bold-span sentinel markers, and re-emits each surviving entry
under caller-supplied style templates.

This file is a shallow embedding of that pipeline over `List Char`.  Each
definition is translated from the source; line numbers in the doc comments
refer to `simplify_rtf.js`.  JS regular-expression passes are rendered as
explicit left-to-right scanners with the same leftmost-match semantics, and
the imperative `while` loops with nested depth counters are rendered as
structurally recursive state machines (the skip state carries the depth).
-/

namespace SanitizeRtf

/-- Group-control characters of RTF: backslash and the two braces. -/
def isSpecial (c : Char) : Bool := c = '\\' || c = '{' || c = '}'

/-- ASCII letter test, mirroring the JS regex class `[a-zA-Z]`. -/
def isAsciiLetter (c : Char) : Bool :=
  ('a' ≤ c && c ≤ 'z') || ('A' ≤ c && c ≤ 'Z')

/-- ASCII digit test, mirroring the JS regex class `[0-9]`. -/
def isAsciiDigit (c : Char) : Bool := '0' ≤ c && c ≤ '9'

/-- JS regex word character class `\w` = `[A-Za-z0-9_]`, used by the `\b`
word-boundary assertions in the source's regexes. -/
def isWordChar (c : Char) : Bool := isAsciiLetter c || isAsciiDigit c || c = '_'

/-- The whitespace class of JS regex `\s` (also the set trimmed by
`String.prototype.trim`). -/
def jsWs (c : Char) : Bool :=
  c ∈ ([' ', '\t', '\n', '\r', '\x0b', '\x0c',
        ' ', ' ', ' ', ' ', ' ', ' ',
        '　', '﻿'] : List Char)
  || (' ' ≤ c && c ≤ ' ')

/-- Numeric value of a list of ASCII digits (the JS `parseInt(num, 10)` on a
string matched by `[0-9]+`). -/
def digitsVal (ds : List Char) : Nat :=
  ds.foldl (fun acc c => acc * 10 + (c.toNat - '0'.toNat)) 0

/-- Hex digit test, mirroring the JS regex class `[0-9a-fA-F]`. -/
def isHexDigit (c : Char) : Bool :=
  isAsciiDigit c || ('a' ≤ c && c ≤ 'f') || ('A' ≤ c && c ≤ 'F')

/-- Value of one hex digit. -/
def hexVal (c : Char) : Nat :=
  if isAsciiDigit c then c.toNat - '0'.toNat
  else if 'a' ≤ c && c ≤ 'f' then c.toNat - 'a'.toNat + 10
  else c.toNat - 'A'.toNat + 10

/-- `decodeUnicode` (lines 57-65): best-effort ASCII rendering of an RTF `\uN`
code point.  Negative code points are normalized by adding 65536; smart
quotes and dashes map to ASCII; code points in `[0,128)` map to themselves;
everything else is dropped. -/
def decodeUnicode (n : Int) : List Char :=
  let code := if n < 0 then n + 65536 else n
  if code = 8220 ∨ code = 8221 then ['"']
  else if code = 8216 ∨ code = 8217 then ['\'']
  else if code = 8211 ∨ code = 8212 then ['-']
  else if 0 ≤ code ∧ code < 128 then [Char.ofNat code.toNat]
  else []

/-! ### Brace balance and the group-stripping passes -/

/-- Net brace contribution of one character. -/
def braceDelta (c : Char) : Int :=
  if c = '{' then 1 else if c = '}' then -1 else 0

/-- `okFrom d s`: scanning `s` starting at brace depth `d`, the depth never
goes negative and returns to `0` at the end of `s`.  `okFrom 0 s` is the
brace-balance property of a whole document. -/
def okFrom : Int → List Char → Bool
  | d, [] => d == 0
  | d, c :: cs => (decide (0 ≤ d + braceDelta c)) && okFrom (d + braceDelta c) cs

/-- Depth update of the source's inner skip loops (`if '{' depth++ else if
'}' depth--`), with the depth held as a `Nat` that starts at 1. -/
def updDepth (c : Char) (d : Nat) : Nat :=
  if c = '{' then d + 1 else if c = '}' then d - 1 else d

/-- `stripStarGroups` (lines 168-185) as a state machine.  State `some d`
means the scanner is inside a dropped `{\*` destination group with `d`
not-yet-closed opening braces; the group's characters are discarded.  If the
text ends before the depth returns to zero, the remainder is silently
discarded (the source's `while (i < rtf.length && depth > 0)` just runs out
of input). -/
def stripStarAux : List Char → Option Nat → List Char
  | [], _ => []
  | c :: cs, some d =>
    if updDepth c d = 0 then stripStarAux cs none else stripStarAux cs (some (updDepth c d))
  | '{' :: '\\' :: '*' :: rest, none => stripStarAux rest (some 1)
  | c :: cs, none => c :: stripStarAux cs none

/-- Remove all starred destination groups (lines 168-185). -/
def stripStarGroups (s : List Char) : List Char := stripStarAux s none

/-- The keywords whose groups `extractEntriesFromRtf` strips (lines 234-248). -/
def stripKeywords : List (List Char) :=
  ["fonttbl".toList, "stylesheet".toList, "info".toList, "colortbl".toList,
   "listtable".toList, "listoverridetable".toList, "rsidtbl".toList,
   "xmlnstbl".toList, "datastore".toList, "themedata".toList,
   "colorschememapping".toList, "latentstyles".toList, "generator".toList]

/-- The keyword read by `stripGroupsByKeyword` at a group opening `{\`:
an optional `*` is skipped, then the run of letters is taken (lines 194-199). -/
def keywordAt (rest : List Char) : List Char :=
  match rest with
  | '*' :: t => t.takeWhile isAsciiLetter
  | _ => rest.takeWhile isAsciiLetter

/-- `stripGroupsByKeyword` (lines 188-215) as a state machine.  State `some d`
is the skip of a recognized keyword group.  On a match the source skips from
just after the keyword's letters with depth 1; since the skipped-over `*` and
letters contain no braces, entering the skip state directly after `{\` is the
same traversal.  When the keyword is not recognized only the `{` is emitted
and scanning resumes at the backslash. -/
def stripKwAux (kws : List (List Char)) : List Char → Option Nat → List Char
  | [], _ => []
  | c :: cs, some d =>
    if updDepth c d = 0 then stripKwAux kws cs none
    else stripKwAux kws cs (some (updDepth c d))
  | '{' :: '\\' :: rest, none =>
    if kws.contains (keywordAt rest) then stripKwAux kws rest (some 1)
    else '{' :: stripKwAux kws ('\\' :: rest) none
  | c :: cs, none => c :: stripKwAux kws cs none

/-- Remove all groups opened by a recognized non-content keyword
(lines 188-215). -/
def stripGroupsByKeyword (kws : List (List Char)) (s : List Char) : List Char :=
  stripKwAux kws s none

/-! ### Paragraph splitting and list-label classification -/

/-- `splitParagraphs` (lines 218-229): split on `\par` not followed by a
letter (the regex `/\\par(?![a-zA-Z])/g`); the accumulator holds the current
fragment reversed, and a trailing fragment is kept only when non-empty. -/
def splitParAux : List Char → List Char → List (List Char)
  | [], acc => if acc.isEmpty then [] else [acc.reverse]
  | '\\' :: 'p' :: 'a' :: 'r' :: rest, acc =>
    if rest.head?.elim true (fun c => !isAsciiLetter c) then
      acc.reverse :: splitParAux rest []
    else splitParAux ('p' :: 'a' :: 'r' :: rest) ('\\' :: acc)
  | c :: cs, acc => splitParAux cs (c :: acc)

/-- Split the cleaned document into paragraph fragments (lines 218-229). -/
def splitParagraphs (s : List Char) : List (List Char) := splitParAux s []

/-- Case-insensitive prefix test (for patterns under the regex `i` flag);
`pat` is given lowercase. -/
def toLowerL (s : List Char) : List Char := s.map Char.toLower

/-- `ciHasPrefix pat s`: `pat` (lowercase) is a prefix of `s` up to case. -/
def ciHasPrefix (pat s : List Char) : Bool := toLowerL (s.take pat.length) == pat

/-- Substring occurrence test (used to model unanchored regex `test`). -/
def containsSub (pat : List Char) : List Char → Bool
  | [] => pat.isEmpty
  | c :: cs => pat.isPrefixOf (c :: cs) || containsSub pat cs

/-- Does `/\listtext\b/` match at the start of `s`?  (`\b` is the regex word
boundary: the next character is absent or not a word character.) -/
def isListtextAt (s : List Char) : Bool :=
  ("\\listtext".toList).isPrefixOf s
    && (s.drop 9).head?.elim true (fun c => !isWordChar c)

/-- `para.search(/\listtext\b/)` with the following `para[start-1] === '{'`
adjustment (lines 313-319): scan for the first match, remembering whether the
character just before it is `{`. -/
def findListtext : Option Char → List Char → Option (Bool × List Char)
  | _, [] => none
  | prev, c :: cs =>
    if isListtextAt (c :: cs) then some (prev == some '{', c :: cs)
    else findListtext (some c) cs

/-- Does `/\insrsid\d+/` match at the start of `s`? -/
def isInsrsidAt (s : List Char) : Bool :=
  ("\\insrsid".toList).isPrefixOf s
    && (s.drop 8).head?.elim false isAsciiDigit

/-- `para.search(/\insrsid\d+/)` (line 314): the suffix at the first match. -/
def findInsrsid : List Char → Option (List Char)
  | [] => none
  | c :: cs => if isInsrsidAt (c :: cs) then some (c :: cs) else findInsrsid cs

/-- The `contentPara` computation of the paragraph loop (lines 313-324). -/
def contentParaOf (p : List Char) : List Char :=
  match findListtext none p with
  | some (hadBrace, suf) => if hadBrace then '{' :: suf else suf
  | none =>
    match findInsrsid p with
    | some suf => suf
    | none => p

/-- `s.indexOf('{\\listtext')` (line 255): the suffix at the first
occurrence. -/
def findOpenListtext : List Char → Option (List Char)
  | [] => none
  | c :: cs =>
    if ("\x7b\\listtext".toList).isPrefixOf (c :: cs) then some (c :: cs)
    else findOpenListtext cs

/-- The brace-counting loop of `extractListtextGroup` (lines 257-265):
collect characters until the depth returns to zero; if it never does, the
source returns the empty string. -/
def collectGroup : List Char → Int → List Char → List Char
  | [], _, _ => []
  | c :: cs, depth, acc =>
    if c = '{' then collectGroup cs (depth + 1) (c :: acc)
    else if c = '}' then
      (if depth - 1 = 0 then (c :: acc).reverse else collectGroup cs (depth - 1) (c :: acc))
    else collectGroup cs depth (c :: acc)

/-- `extractListtextGroup` (lines 254-267). -/
def extractListtextGroup (s : List Char) : List Char :=
  match findOpenListtext s with
  | none => []
  | some suf => collectGroup suf 0 []

/-- Word boundary after the last consumed character: the next character is
absent or not a word character. -/
def bBoundary (l : List Char) : Bool := l.head?.elim true (fun c => !isWordChar c)

/-- `boldStateAfterRtf` (lines 269-277): run the `exec` loop of
`/\\b0\b|\\b\b/gi` and report whether the last match is a plain `\b`
(i.e. bold is left on).  At each position the `\b0` alternative is tried
first; if neither alternative matches, the scan advances one character. -/
def boldScan : List Char → Bool → Bool
  | [], bOn => bOn
  | '\\' :: c :: '0' :: rest2, bOn =>
    if c = 'b' ∨ c = 'B' then
      (if bBoundary rest2 then boldScan rest2 false
       else boldScan (c :: '0' :: rest2) bOn)
    else boldScan (c :: '0' :: rest2) bOn
  | '\\' :: c :: rest, bOn =>
    if (c = 'b' ∨ c = 'B') ∧ bBoundary rest then boldScan rest true
    else boldScan (c :: rest) bOn
  | _ :: cs, bOn => boldScan cs bOn

/-- `removeListtextGroups` (lines 279-296) as a state machine: on a
`{\listtext` opening, the source skips from just after the `{` with depth 1
(re-scanning the keyword letters, which contain no braces). -/
def removeLtAux : List Char → Option Nat → List Char
  | [], _ => []
  | c :: cs, some d =>
    if updDepth c d = 0 then removeLtAux cs none else removeLtAux cs (some (updDepth c d))
  | c :: cs, none =>
    if ("\x7b\\listtext".toList).isPrefixOf (c :: cs) then removeLtAux cs (some 1)
    else c :: removeLtAux cs none

/-- Remove every `{\listtext ...}` group (lines 279-296). -/
def removeListtextGroups (s : List Char) : List Char := removeLtAux s none

/-- List label kinds of the source (`'bullet'` / `'ordered'`, lines 300-307). -/
inductive LType
  | bullet
  | ordered
deriving DecidableEq

/-- The fixed bullet placeholder label `"舦?"` (lines 300, 304). -/
def bulletLabel : List Char := "\\u8226?".toList

/-- Does `/\\u(-?\d+)\??\\tab/i` match at the start of `s`?  If so, the
parsed code point. -/
def matchUAt (s : List Char) : Option Int :=
  match s with
  | '\\' :: u :: rest =>
    if u = 'u' ∨ u = 'U' then
      let sr : Int × List Char := match rest with
        | '-' :: t => (-1, t)
        | _ => (1, rest)
      let ds := sr.2.takeWhile isAsciiDigit
      if ds.isEmpty then none
      else
        let r2 := sr.2.dropWhile isAsciiDigit
        let r3 := match r2 with
          | '?' :: t => t
          | _ => r2
        if ciHasPrefix ("\\tab".toList) r3 then some (sr.1 * (digitsVal ds : Int))
        else none
    else none
  | _ => none

/-- First match of `/\\u(-?\d+)\??\\tab/i` in `s` (line 301). -/
def findUMatch : List Char → Option Int
  | [] => none
  | c :: cs =>
    match matchUAt (c :: cs) with
    | some v => some v
    | none => findUMatch cs

/-- Does `orderedLabelRe = /([0-9]+\.|[a-z]\.)\\tab/i` (line 252) match at
the start of `s`?  If so, the captured label text. -/
def matchOrderedAt : List Char → Option (List Char)
  | [] => none
  | c :: cs =>
    if isAsciiDigit c then
      match (c :: cs).dropWhile isAsciiDigit with
      | '.' :: r2 =>
        if ciHasPrefix ("\\tab".toList) r2 then some ((c :: cs).takeWhile isAsciiDigit ++ ['.'])
        else none
      | _ => none
    else if isAsciiLetter c then
      match cs with
      | '.' :: r2 => if ciHasPrefix ("\\tab".toList) r2 then some [c, '.'] else none
      | _ => none
    else none

/-- First match of the ordered-label regex in `s` (line 306). -/
def findOrdered : List Char → Option (List Char)
  | [] => none
  | c :: cs =>
    match matchOrderedAt (c :: cs) with
    | some l => some l
    | none => findOrdered cs

/-- `getListLabel` (lines 298-309): empty marker group means no label; the
bullet byte-escape `\'b7\tab` and the bullet Unicode escapes are checked
first; otherwise the ordered-label regex is tried. -/
def getListLabel (lg : List Char) : Option (List Char × LType) :=
  if lg = [] then none
  else if containsSub ("\\'b7\\tab".toList) (toLowerL lg) then some (bulletLabel, LType.bullet)
  else
    let uBullet : Bool := match findUMatch lg with
      | some code => code == 8226 || code == 9679
      | none => false
    if uBullet then some (bulletLabel, LType.bullet)
    else
      match findOrdered lg with
      | some lbl => some (lbl, LType.ordered)
      | none => none

/-! ### The fragment sanitizer (`sanitizeRtfFragment`, lines 67-165)

The scanner's output is modelled as a list of tokens: plain characters, and
the two bold-span sentinel markers the source appends as the strings
`[[B_ON]]` / `[[B_OFF]]`.  `renderToks` recovers the very string the source
builds in `out`. -/

/-- One piece of the sanitizer's output string. -/
inductive Tok
  | ch (c : Char)
  | on
  | off
deriving DecidableEq

/-- The bold-on sentinel `[[B_ON]]`. -/
def onMark : List Char := "[[B_ON]]".toList

/-- The bold-off sentinel `[[B_OFF]]`. -/
def offMark : List Char := "[[B_OFF]]".toList

/-- The string a token contributes to the sanitizer's `out`. -/
def renderTok : Tok → List Char
  | .ch c => [c]
  | .on => onMark
  | .off => offMark

/-- Concatenate the rendered tokens. -/
def renderToks : List Tok → List Char
  | [] => []
  | t :: ts => renderTok t ++ renderToks ts

/-- Skip one leading occurrence of `c` (the source's `if (fragment[i] === c)
i++`). -/
def skipOne (c : Char) (l : List Char) : List Char :=
  match l with
  | x :: t => if x = c then t else l
  | [] => []

/-- Split a leading `-` sign off (the source's `if (fragment[i] === '-')
{ sign = -1; i++ }`). -/
def signSplit (l : List Char) : Int × List Char :=
  match l with
  | '-' :: t => (-1, t)
  | _ => (1, l)

/-- The characters emitted by a `\uN` escape (lines 99-112): optional sign,
a digit run parsed to a code point, decoded when the run is non-empty.
`t` is the text just after `\u`. -/
def uEmitted (t : List Char) : List Char :=
  let sr := signSplit t
  let ds := sr.2.takeWhile isAsciiDigit
  if ds.isEmpty then [] else decodeUnicode (sr.1 * (digitsVal ds : Int))

/-- The scan position after a `\uN` escape (lines 100-114): past the sign
and digits, one optional `?`, one optional space. -/
def uRest (t : List Char) : List Char :=
  skipOne ' ' (skipOne '?' ((signSplit t).2.dropWhile isAsciiDigit))

/-- The optional signed parameter of a control word (lines 131-140).
`rest` is the text from the first letter of the word. -/
def wordParam (rest : List Char) : Option Int :=
  let sr := signSplit (rest.dropWhile isAsciiLetter)
  let ds := sr.2.takeWhile isAsciiDigit
  if ds.isEmpty then none else some (sr.1 * (digitsVal ds : Int))

/-- The scan position after a control word, its parameter, and one optional
trailing space (lines 125-148). -/
def wordRest (rest : List Char) : List Char :=
  skipOne ' ' ((signSplit (rest.dropWhile isAsciiLetter)).2.dropWhile isAsciiDigit)

theorem length_skipOne_le (c : Char) (l : List Char) : (skipOne c l).length ≤ l.length := by
  cases l with
  | nil => simp [skipOne]
  | cons x t => by_cases h : x = c <;> simp [skipOne, h]

theorem length_signSplit_le (l : List Char) : (signSplit l).2.length ≤ l.length := by
  rw [signSplit.eq_def]
  split
  · simp
  · simp

theorem len_dropWhile_le (p : Char → Bool) (l : List Char) :
    (l.dropWhile p).length ≤ l.length := by
  induction l with
  | nil => simp
  | cons c cs ih =>
    by_cases h : p c <;> simp [List.dropWhile, h]
    omega

theorem len_tail_le (l : List Char) : l.tail.length ≤ l.length := by
  cases l <;> simp

theorem uRest_len (t : List Char) : (uRest t).length ≤ t.length := by
  unfold uRest
  calc (skipOne ' ' (skipOne '?' ((signSplit t).2.dropWhile isAsciiDigit))).length
      ≤ (skipOne '?' ((signSplit t).2.dropWhile isAsciiDigit)).length := length_skipOne_le _ _
    _ ≤ ((signSplit t).2.dropWhile isAsciiDigit).length := length_skipOne_le _ _
    _ ≤ (signSplit t).2.length := len_dropWhile_le _ _
    _ ≤ t.length := length_signSplit_le _

theorem sanScan_dec1 (rest : List Char) : (uRest rest.tail).length ≤ rest.length :=
  le_trans (uRest_len rest.tail) (len_tail_le rest)

theorem wordRest_len (rest : List Char) : (wordRest rest).length ≤ rest.length := by
  unfold wordRest
  calc (skipOne ' ' ((signSplit (rest.dropWhile isAsciiLetter)).2.dropWhile isAsciiDigit)).length
      ≤ ((signSplit (rest.dropWhile isAsciiLetter)).2.dropWhile isAsciiDigit).length :=
        length_skipOne_le _ _
    _ ≤ (signSplit (rest.dropWhile isAsciiLetter)).2.length := len_dropWhile_le _ _
    _ ≤ (rest.dropWhile isAsciiLetter).length := length_signSplit_le _
    _ ≤ rest.length := len_dropWhile_le _ _

theorem sanScan_dec2 (rest : List Char) : (wordRest rest).length ≤ rest.length :=
  wordRest_len rest

theorem sanScan_dec3 (rest : List Char) : (rest.tail.drop 2).length ≤ rest.length :=
  le_trans (by rw [List.length_drop]; omega) (len_tail_le rest)

/-- The two-hex-digit byte escape after `\'` (lines 117-124): the source
takes `fragment.slice(i+2, i+4)` and tests `/^[0-9a-fA-F]{2}$/`. -/
def hexByteAt (l : List Char) : Option Char :=
  match l with
  | h1 :: h2 :: _ =>
    if isHexDigit h1 && isHexDigit h2 then
      some (Char.ofNat (hexVal h1 * 16 + hexVal h2))
    else none
  | _ => none

/-- The per-character loop of `sanitizeRtfFragment` (lines 75-156), with the
mutable `bold` flag and group stack passed explicitly.  Returns the emitted
tokens together with the final bold state (used for the forced close at line
157).  Control-word branches consume the word, an optional signed parameter
and one optional trailing space, exactly as the source's index arithmetic
does.  A backslash at the very end of the fragment is consumed without
effect (the source's `i += 2` runs past the end, emitting nothing). -/
def sanScan : List Char → Bool → List Bool → List Tok × Bool
  | [], bold, _ => ([], bold)
  | c :: rest, bold, stack =>
    if c = '{' then sanScan rest bold (bold :: stack)
    else if c = '}' then
      let prev := stack.headD false
      let stack' := stack.tail
      if prev = bold then sanScan rest bold stack'
      else
        let r := sanScan rest prev stack'
        ((if prev then Tok.on else Tok.off) :: r.1, r.2)
    else if c = '\\' then
      match rest.head? with
      | none => ([], bold)
      | some next =>
        if isSpecial next then
          let r := sanScan rest.tail bold stack
          (Tok.ch next :: r.1, r.2)
        else if next = 'u' then
          let r := sanScan (uRest rest.tail) bold stack
          ((uEmitted rest.tail).map Tok.ch ++ r.1, r.2)
        else if next = '\'' then
          match hexByteAt rest.tail with
          | some ch =>
            let r := sanScan (rest.tail.drop 2) bold stack
            (Tok.ch ch :: r.1, r.2)
          | none => sanScan rest.tail bold stack
        else if isAsciiLetter next then
          if toLowerL (rest.takeWhile isAsciiLetter) = ['b'] then
            let nextBold := !(wordParam rest == some 0)
            if nextBold = bold then sanScan (wordRest rest) bold stack
            else
              let r := sanScan (wordRest rest) nextBold stack
              ((if nextBold then Tok.on else Tok.off) :: r.1, r.2)
          else sanScan (wordRest rest) bold stack
        else sanScan rest.tail bold stack
    else
      let r := sanScan rest bold stack
      (Tok.ch c :: r.1, r.2)
termination_by s _ _ => s.length
decreasing_by
  all_goals simp +arith [List.length_cons]
  all_goals
    first
    | exact sanScan_dec1 rest
    | exact sanScan_dec2 rest

/-- The scanner output including the forced close: `if (bold) out +=
'[[B_OFF]]'` (line 157). -/
def sanMarked (fragment : List Char) : List Tok :=
  let r := sanScan fragment false []
  r.1 ++ (if r.2 then [Tok.off] else [])

/-- Line 160: `s.replace(/[\n\r\t]+/g, '')`. -/
def stripCtlChars (s : List Char) : List Char :=
  s.filter (fun c => !(c == '\n' || c == '\r' || c == '\t'))

/-- Line 161: `s.replace(/[^\x20-\x7E]/g, '')`. -/
def keepPrintable (s : List Char) : List Char :=
  s.filter (fun c => ' ' ≤ c && c ≤ '~')

/-- Line 162 (`s.replace(/[ ]{2,}/g, ' ')`) as a state machine: `inRun` is
true while inside a run of spaces whose first space was already emitted. -/
def collapseAux : List Char → Bool → List Char
  | [], _ => []
  | c :: cs, inRun =>
    if c = ' ' then (if inRun then collapseAux cs true else ' ' :: collapseAux cs true)
    else c :: collapseAux cs false

/-- Collapse every run of two or more spaces to a single space (line 162). -/
def collapseSpaces (s : List Char) : List Char := collapseAux s false

/-- The punctuation class `[,.;:]` of line 163. -/
def punctChars : List Char := [',', '.', ';', ':']

/-- Line 163 (`s.replace(/\s+([,.;:])/g, '$1')`) as a state machine: `pend`
holds (reversed) a pending run of whitespace, which is dropped if the run
turns out to be followed by a punctuation character and emitted otherwise. -/
def punctAux : List Char → List Char → List Char
  | [], pend => pend.reverse
  | c :: cs, pend =>
    if jsWs c then punctAux cs (c :: pend)
    else if punctChars.contains c && !pend.isEmpty then c :: punctAux cs []
    else pend.reverse ++ c :: punctAux cs []

/-- Remove whitespace immediately preceding `,`, `.`, `;`, `:` (line 163). -/
def punctPass (s : List Char) : List Char := punctAux s []

/-- Leading-whitespace part of `String.prototype.trim`. -/
def trimL (s : List Char) : List Char := s.dropWhile jsWs

/-- Trailing-whitespace part of `String.prototype.trim`. -/
def trimR : List Char → List Char
  | [] => []
  | c :: cs =>
    match trimR cs with
    | [] => if jsWs c then [] else [c]
    | r => c :: r

/-- `s.trim()` (line 164). -/
def trimBoth (s : List Char) : List Char := trimR (trimL s)

/-- `sanitizeRtfFragment` (lines 67-165): the token scan rendered to a
string, followed by the four post-passes of lines 159-164. -/
def sanitizeRtfFragment (fragment : List Char) : List Char :=
  trimBoth (punctPass (collapseSpaces (keepPrintable (stripCtlChars
    (renderToks (sanMarked fragment))))))

/-! ### Entry extraction (`extractEntriesFromRtf`, lines 232-341) -/

/-- An extracted entry: `{type:'list', label, body, listType}` or
`{type:'text', body}` (lines 333, 337). -/
inductive Entry
  | list (label : List Char) (body : List Char) (listType : LType)
  | text (body : List Char)
deriving DecidableEq

/-- Line 249: `rtf.replace(/\r\n/g, '\n')`. -/
def normNewlines : List Char → List Char
  | '\r' :: '\n' :: rest => '\n' :: normNewlines rest
  | c :: cs => c :: normNewlines cs
  | [] => []

/-- The body of the paragraph loop (lines 311-338): skip whitespace-only
fragments, locate the content slice, classify the marker group, and build
the entry; entries with an empty sanitized body are dropped. -/
def processPara (p : List Char) : Option Entry :=
  if trimBoth p = [] then none
  else
    let contentPara := contentParaOf p
    let lg := extractListtextGroup contentPara
    match getListLabel lg with
    | some li =>
      let boldOn := boldScan lg false
      let bodyRtf := if boldOn then "[[B_OFF]] ".toList ++ removeListtextGroups contentPara
                     else removeListtextGroups contentPara
      let body := sanitizeRtfFragment bodyRtf
      if body = [] then none else some (Entry.list li.1 body li.2)
    | none =>
      let t := sanitizeRtfFragment contentPara
      if t = [] then none else some (Entry.text t)

/-- `extractEntriesFromRtf` (lines 232-341): normalize newlines, strip
destination groups, strip keyword groups, split into paragraphs, and process
each paragraph in order. -/
def extractEntriesFromRtf (rtf : List Char) : List Entry :=
  let cleaned := stripGroupsByKeyword stripKeywords (stripStarGroups (normNewlines rtf))
  (splitParagraphs cleaned).filterMap processPara

/-! ### Re-emitter escaping (`escapeRtfText`, lines 344-363)

Each global regex replace of the source becomes one scanner with JS
semantics: leftmost match, replacement emitted, scan resumed after the
consumed part of the match. -/

/-- Line 345: protect `[[B_ON]]` as `__RTF_B_ON__`. -/
def protectOn : List Char → List Char
  | '[' :: '[' :: 'B' :: '_' :: 'O' :: 'N' :: ']' :: ']' :: rest =>
    "__RTF_B_ON__".toList ++ protectOn rest
  | c :: cs => c :: protectOn cs
  | [] => []

/-- Line 346: protect `[[B_OFF]]` as `__RTF_B_OFF__`. -/
def protectOff : List Char → List Char
  | '[' :: '[' :: 'B' :: '_' :: 'O' :: 'F' :: 'F' :: ']' :: ']' :: rest =>
    "__RTF_B_OFF__".toList ++ protectOff rest
  | c :: cs => c :: protectOff cs
  | [] => []

/-- Line 348: `out.replace(/([\\{}])/g, '\\$1')`. -/
def escapeCtrl : List Char → List Char
  | [] => []
  | c :: cs => if isSpecial c then '\\' :: c :: escapeCtrl cs else c :: escapeCtrl cs

/-- Line 349: `out.replace(/[^\x00-\x7F]/g, '')`. -/
def keepAscii (s : List Char) : List Char := s.filter (fun c => c.toNat ≤ 127)

/-- Line 351: restore `__RTF_B_ON__` as the control word `\b ` (with its
trailing space).  The replacement consumes the twelve matched characters,
tracked by an explicit skip counter. -/
def restoreOnAux : List Char → Nat → List Char
  | [], _ => []
  | c :: cs, k =>
    if k = 0 then
      (if ("__RTF_B_ON__".toList).isPrefixOf (c :: cs) then
        '\\' :: 'b' :: ' ' :: restoreOnAux cs 11
      else c :: restoreOnAux cs 0)
    else restoreOnAux cs (k - 1)

/-- Line 351: restore `__RTF_B_ON__` as `\b `. -/
def restoreOn (l : List Char) : List Char := restoreOnAux l 0

/-- Line 352: restore `__RTF_B_OFF__` as the control word `\b0 `. -/
def restoreOffAux : List Char → Nat → List Char
  | [], _ => []
  | c :: cs, k =>
    if k = 0 then
      (if ("__RTF_B_OFF__".toList).isPrefixOf (c :: cs) then
        '\\' :: 'b' :: '0' :: ' ' :: restoreOffAux cs 12
      else c :: restoreOffAux cs 0)
    else restoreOffAux cs (k - 1)

/-- Line 352: restore `__RTF_B_OFF__` as `\b0 `. -/
def restoreOff (l : List Char) : List Char := restoreOffAux l 0

/-- Line 353 (`/\\b0\s+/g` to `\b0 `) as a state machine; `inSkip` consumes
the rest of the whitespace run of a match already replaced. -/
def pass353Aux : List Char → Bool → List Char
  | [], _ => []
  | '\\' :: 'b' :: '0' :: d :: rest, _ =>
    if jsWs d then '\\' :: 'b' :: '0' :: ' ' :: pass353Aux rest true
    else '\\' :: pass353Aux ('b' :: '0' :: d :: rest) false
  | c :: cs, inSkip =>
    if jsWs c then
      (if inSkip then pass353Aux cs true else c :: pass353Aux cs false)
    else c :: pass353Aux cs false

/-- Line 353: ensure one space after a bold-off control word. -/
def pass353 (s : List Char) : List Char := pass353Aux s false

/-- Line 354 (`/\\b\s+/g` to `\b `) as a state machine. -/
def pass354Aux : List Char → Bool → List Char
  | [], _ => []
  | '\\' :: 'b' :: d :: rest, _ =>
    if jsWs d then '\\' :: 'b' :: ' ' :: pass354Aux rest true
    else '\\' :: pass354Aux ('b' :: d :: rest) false
  | c :: cs, inSkip =>
    if jsWs c then
      (if inSkip then pass354Aux cs true else c :: pass354Aux cs false)
    else c :: pass354Aux cs false

/-- Line 354: ensure one space after a bold-on control word. -/
def pass354 (s : List Char) : List Char := pass354Aux s false

/-- Line 355: `/\\b(?!0)([^ ])/g` to `\b $1`. -/
def pass355 : List Char → List Char
  | '\\' :: 'b' :: d :: rest =>
    if d ≠ '0' ∧ d ≠ ' ' then '\\' :: 'b' :: ' ' :: d :: pass355 rest
    else '\\' :: pass355 ('b' :: d :: rest)
  | c :: cs => c :: pass355 cs
  | [] => []

/-- Line 356: `/\\b0([^ ])/g` to `\b0 $1`. -/
def pass356 : List Char → List Char
  | '\\' :: 'b' :: '0' :: d :: rest =>
    if d ≠ ' ' then '\\' :: 'b' :: '0' :: ' ' :: d :: pass356 rest
    else '\\' :: pass356 ('b' :: '0' :: d :: rest)
  | c :: cs => c :: pass356 cs
  | [] => []

/-- Alphanumeric class `[A-Za-z0-9]` of lines 357-358. -/
def jsAlnum (c : Char) : Bool := isAsciiLetter c || isAsciiDigit c

/-- Line 357: `/\\b0(?=[A-Za-z0-9])/g` to `\b0 ` (the lookahead character is
not consumed). -/
def pass357 : List Char → List Char
  | '\\' :: 'b' :: '0' :: rest =>
    if rest.head?.elim false jsAlnum then '\\' :: 'b' :: '0' :: ' ' :: pass357 rest
    else '\\' :: pass357 ('b' :: '0' :: rest)
  | c :: cs => c :: pass357 cs
  | [] => []

/-- Line 358: `/\\b(?!0)(?=[A-Za-z0-9])/g` to `\b `. -/
def pass358 : List Char → List Char
  | '\\' :: 'b' :: rest =>
    if rest.head?.elim false (fun c => jsAlnum c && c ≠ '0') then
      '\\' :: 'b' :: ' ' :: pass358 rest
    else '\\' :: pass358 ('b' :: rest)
  | c :: cs => c :: pass358 cs
  | [] => []

/-- The punctuation class `[,.;:!?]` of lines 359-360. -/
def punct2Chars : List Char := [',', '.', ';', ':', '!', '?']

/-- Line 359: `/([,.;:!?])\\b0 /g` to `$1 \b0 `. -/
def pass359 : List Char → List Char
  | p :: '\\' :: 'b' :: '0' :: ' ' :: rest =>
    if punct2Chars.contains p then p :: ' ' :: '\\' :: 'b' :: '0' :: ' ' :: pass359 rest
    else p :: pass359 ('\\' :: 'b' :: '0' :: ' ' :: rest)
  | c :: cs => c :: pass359 cs
  | [] => []

/-- Line 360: `/([,.;:!?])\\b /g` to `$1 \b `. -/
def pass360 : List Char → List Char
  | p :: '\\' :: 'b' :: ' ' :: rest =>
    if punct2Chars.contains p then p :: ' ' :: '\\' :: 'b' :: ' ' :: pass360 rest
    else p :: pass360 ('\\' :: 'b' :: ' ' :: rest)
  | c :: cs => c :: pass360 cs
  | [] => []

/-- `escapeRtfText` (lines 344-363), with the caller's uppercase option. -/
def escapeRtfText (s : List Char) (caps : Bool) : List Char :=
  let o1 := protectOff (protectOn s)
  let o2 := if caps then o1.map Char.toUpper else o1
  let o3 := keepAscii (escapeCtrl o2)
  let o4 := trimBoth (collapseSpaces o3)
  let o5 := restoreOff (restoreOn o4)
  let o6 := pass360 (pass359 (pass358 (pass357 (pass356 (pass355 (pass354 (pass353 o5)))))))
  trimBoth (collapseSpaces o6)

/-- The reversal of the three literal-escape rules stated by the spec's
round-trip property: `\\` to backslash, `\{` to open brace, `\}` to close
brace. -/
def unescapeRtf : List Char → List Char
  | '\\' :: '\\' :: rest => '\\' :: unescapeRtf rest
  | '\\' :: '{' :: rest => '{' :: unescapeRtf rest
  | '\\' :: '}' :: rest => '}' :: unescapeRtf rest
  | c :: cs => c :: unescapeRtf cs
  | [] => []

/-- The whitespace-normalization step shared by lines 162-164 (and, without
the punctuation rule, lines 350/361): collapse space runs, remove whitespace
before `,.;:`, trim. -/
def wsNormalize (s : List Char) : List Char := trimBoth (punctPass (collapseSpaces s))

/-! ### Style table and output assembly (`readStyles` lines 37-54,
`main` lines 366-393) -/

/-- The loaded style table: ordered header lines plus the key-value map
(`style[name] = value`, later rows shadowing earlier ones). -/
structure Styles where
  headerLines : List (List Char)
  style : List (String × List Char)
deriving DecidableEq

/-- `line.replace(/\r$/, '')` (line 42). -/
def stripCr (l : List Char) : List Char :=
  if l.getLast? = some '\r' then l.dropLast else l

/-- One row of the styles table (lines 41-48): skip blank lines and the
`type name` heading row; `header_line` rows append to the preamble;
`style` rows set `style[name]` (an absent name indexes as "undefined",
matching the JS property key). -/
def styleRow (acc : List (List Char) × List (String × List Char)) (raw : List Char) :
    List (List Char) × List (String × List Char) :=
  let line := stripCr raw
  if trimBoth line = [] then acc
  else
    let fs := (line.splitOn '\t').take 3
    let ty := fs.get? 0
    let nm := fs.get? 1
    let vl := fs.get? 2
    if ty = some ("type".toList) ∧ nm = some ("name".toList) then acc
    else
      let acc1 := if ty = some ("header_line".toList) then (acc.1 ++ [vl.getD []], acc.2) else acc
      if ty = some ("style".toList) then
        (acc1.1, (String.mk (nm.getD ("undefined".toList)), vl.getD []) :: acc1.2)
      else acc1

/-- The four required style keys, in the order checked (line 49). -/
def requiredStyleKeys : List String :=
  ["level1_prefix", "level1_label_sep", "level2_prefix", "level2_label_sep"]

/-- `readStyles` (lines 37-54): parse the tab-separated rows, then fail on
the first missing required key, then fail if no header lines were read. -/
def readStyles (path : String) (text : List Char) : Except String Styles :=
  let parsed := (text.splitOn '\n').foldl styleRow ([], [])
  match requiredStyleKeys.find? (fun k => (List.lookup k parsed.2).isNone) with
  | some k => Except.error ("Missing style: " ++ k ++ " in " ++ path)
  | none =>
    if parsed.1.isEmpty then Except.error ("No header_line entries in " ++ path)
    else Except.ok ⟨parsed.1, parsed.2⟩

/-- `/^[a-z]\./i.test(entry.label)` (line 377). -/
def startsAlphaDot (l : List Char) : Bool :=
  match l with
  | c :: '.' :: _ => isAsciiLetter c
  | _ => false

/-- The built-in default normal-text style (line 386). -/
def defaultNormal : List Char := "\\pard\\s0 ".toList

/-- The body of `main`'s output loop for one entry (lines 374-390): build
the output line, or drop the entry when the escaped body is empty. -/
def emitLine (st : Styles) (caps : Bool) : Entry → Option (List Char)
  | .list label body lt =>
    let isBullet := lt == LType.bullet
    let isLevel2 := isBullet || startsAlphaDot label
    let pfx := (List.lookup (if isLevel2 then "level2_prefix" else "level1_prefix") st.style).getD []
    let labelSep :=
      (List.lookup (if isLevel2 then "level2_label_sep" else "level1_label_sep") st.style).getD []
    let label2 := match List.lookup "bullet_label" st.style with
      | some v => if isBullet && !v.isEmpty then v else label
      | none => label
    let body2 := escapeRtfText body caps
    if body2.isEmpty then none
    else some (pfx ++ label2 ++ labelSep ++ body2 ++ "\\par".toList)
  | .text body =>
    let np := match List.lookup "normal_prefix" st.style with
      | some v => if v.isEmpty then defaultNormal else v
      | none => defaultNormal
    let body2 := escapeRtfText body caps
    if body2.isEmpty then none
    else some (np ++ body2 ++ "\\par".toList)

/-- The `out` array built by `main` (lines 372-391): the header lines,
then one pushed line per surviving entry, then the closing brace. -/
def mainLines (st : Styles) (caps : Bool) (rtf : List Char) : List (List Char) :=
  let entries := extractEntriesFromRtf rtf
  (entries.foldl (fun acc e =>
    match emitLine st caps e with
    | some l => acc ++ [l]
    | none => acc) st.headerLines) ++ [['}']]

/-- `out.join('\n')` (line 392). -/
def joinLines (ls : List (List Char)) : List Char := List.intercalate ['\n'] ls

/-- One whole conversion (`main`, lines 366-393), the document source/sink
modelled as strings: load the style table, then produce the output text.
A style-table error aborts before the document is used. -/
def convert (path : String) (stylesText : List Char) (caps : Bool) (rtf : List Char) :
    Except String (List Char) :=
  match readStyles path stylesText with
  | .error e => .error e
  | .ok st => .ok (joinLines (mainLines st caps rtf))

/-- The normalization step of `decodeUnicode` (lines 58-59): negative code
points denote the upper half of the 16-bit range. -/
def normCode (n : Int) : Int := if n < 0 then n + 65536 else n

/-- Number of positions at which `pat` occurs in a string (used to count
sentinel markers in sanitizer output). -/
def countSub (pat : List Char) : List Char → Nat
  | [] => 0
  | c :: cs => (if pat.isPrefixOf (c :: cs) then 1 else 0) + countSub pat cs

/-- The bold-span markers of a token stream, in order (`true` = ON). -/
def markersOf (ts : List Tok) : List Bool :=
  ts.filterMap (fun t => match t with
    | Tok.on => some true
    | Tok.off => some false
    | Tok.ch _ => none)

/-- `altAfter prev ms`: each marker is the negation of the one before it,
starting from state `prev`. -/
def altAfter : Bool → List Bool → Bool
  | _, [] => true
  | prev, m :: ms => (m == !prev) && altAfter m ms

/-- A balanced marker sequence: strictly alternating from the initial OFF
state (so it starts with ON if non-empty) and not left open at the end. -/
def balancedMarks (l : List Bool) : Bool :=
  altAfter false l && (l.getLastD false == false)

/-- Context depth after leaving a skip state. -/
def stOut (st : Option Nat) (d : Int) : Int :=
  match st with
  | none => d
  | some k => d - k

/-- Side condition tying a skip state to the context depth. -/
def stCond (st : Option Nat) (d : Int) : Prop :=
  match st with
  | none => 0 ≤ d
  | some k => 1 ≤ k ∧ (k : Int) ≤ d

/-- A concrete valid styles table used by witnesses. -/
def demoStylesText : List Char :=
  ("type\tname\tvalue\nheader_line\th1\tHDR\nstyle\tlevel1_prefix\tP1 \nstyle\tlevel1_label_sep\t. \nstyle\tlevel2_prefix\tP2 \nstyle\tlevel2_label_sep\t) ").toList

/-- The style table `demoStylesText` parses to. -/
def demoStyles : Styles :=
  { headerLines := ["HDR".toList],
    style := [("level2_label_sep", ") ".toList), ("level2_prefix", "P2 ".toList),
              ("level1_label_sep", ". ".toList), ("level1_prefix", "P1 ".toList)] }

/-- A styles table with the required key `level2_prefix` missing. -/
def badStylesText : List Char :=
  ("type\tname\tvalue\nheader_line\th1\tHDR\nstyle\tlevel1_prefix\tP1 \nstyle\tlevel1_label_sep\t. \nstyle\tlevel2_label_sep\t) ").toList

/-! ### Adjacent-pair predicates for the whitespace-normalization passes -/

/-- Two adjacent literal spaces (the pattern collapsed by line 162). -/

def dblSp (a b : Char) : Bool := a == ' ' && b == ' '

/-- Whitespace followed by one of the punctuation characters of line 163. -/
def wsPunct (a b : Char) : Bool := jsWs a && punctChars.contains b

/-- No two adjacent characters of the list satisfy the pair predicate. -/
def noPair (p : Char → Char → Bool) : List Char → Bool
  | a :: b :: rest => !p a b && noPair p (b :: rest)
  | _ => true

/-- The pair predicate fails between a character and the head of a list. -/
def okHead (p : Char → Char → Bool) (c : Char) : List Char → Bool
  | [] => true
  | b :: _ => !p c b

/-- The list does not begin with a punctuation character. -/
def headNotPunct : List Char → Bool
  | [] => true
  | b :: _ => !punctChars.contains b

/-- A backslash immediately followed by `b` (the pattern the line 353-360
bold-control passes react to). -/
def bsB (a b : Char) : Bool := a == '\\' && b == 'b'

/-- Two adjacent underscores (the start of the protected marker strings
`__RTF_B_ON__` / `__RTF_B_OFF__`). -/
def dUnd (a b : Char) : Bool := a == '_' && b == '_'

/-- Two adjacent opening brackets (the start of the marker strings
`[[B_ON]]` / `[[B_OFF]]`). -/
def dBrk (a b : Char) : Bool := a == '[' && b == '['

/-- The list does not begin with a whitespace character. -/
def headNotWs (l : List Char) : Bool := l.head?.elim true (fun c => !jsWs c)

/-- The list does not end with a whitespace character. -/
def lastNotWs (l : List Char) : Bool := l.getLast?.elim true (fun c => !jsWs c)

/-- The scanner state of `stripStarAux` after processing `s` from state
`st` (lines 168-185): `none` is top level, `some d` is inside a dropped
destination group with `d` unclosed braces. -/
def starSt : List Char → Option Nat → Option Nat
  | [], st => st
  | c :: cs, some d =>
    if updDepth c d = 0 then starSt cs none else starSt cs (some (updDepth c d))
  | '{' :: '\\' :: '*' :: rest, none => starSt rest (some 1)
  | _ :: cs, none => starSt cs none

/-- From skip depth `d`, the text never returns the depth to zero: the group
opened before it is never closed. -/
def neverCloses : Nat → List Char → Bool
  | _, [] => true
  | d, c :: cs => (updDepth c d != 0) && neverCloses (updDepth c d) cs

/-! ## Theorems -/

/-- C5: the Escape Decoder first normalizes a negative code point by adding
65536, then returns `"` for 8220/8221, `'` for 8216/8217, `-` for 8211/8212,
the literal ASCII character for a normalized code point in `[0,128)`, and the
empty string for every other code point. -/
theorem decodeUnicode_spec (n : Int) :
    ((normCode n = 8220 ∨ normCode n = 8221) → decodeUnicode n = ['"'])
    ∧ ((normCode n = 8216 ∨ normCode n = 8217) → decodeUnicode n = ['\''])
    ∧ ((normCode n = 8211 ∨ normCode n = 8212) → decodeUnicode n = ['-'])
    ∧ (0 ≤ normCode n ∧ normCode n < 128 →
        decodeUnicode n = [Char.ofNat (normCode n).toNat])
    ∧ (¬(normCode n = 8220 ∨ normCode n = 8221) →
       ¬(normCode n = 8216 ∨ normCode n = 8217) →
       ¬(normCode n = 8211 ∨ normCode n = 8212) →
       ¬(0 ≤ normCode n ∧ normCode n < 128) →
        decodeUnicode n = []) := by
  have hd : decodeUnicode n =
      (if normCode n = 8220 ∨ normCode n = 8221 then ['"']
       else if normCode n = 8216 ∨ normCode n = 8217 then ['\'']
       else if normCode n = 8211 ∨ normCode n = 8212 then ['-']
       else if 0 ≤ normCode n ∧ normCode n < 128 then [Char.ofNat (normCode n).toNat]
       else []) := rfl
  refine ⟨fun h => ?_, fun h => ?_, fun h => ?_, fun h => ?_, fun h1 h2 h3 h4 => ?_⟩
  · rw [hd]
    rcases h with h | h <;> rw [h] <;> norm_num
  · rw [hd]
    rcases h with h | h <;> rw [h] <;> norm_num
  · rw [hd]
    rcases h with h | h <;> rw [h] <;> norm_num
  · rw [hd]
    split_ifs with c1 c2 c3
    · exfalso
      rcases c1 with c | c <;> omega
    · exfalso
      rcases c2 with c | c <;> omega
    · exfalso
      rcases c3 with c | c <;> omega
    · rfl
  · rw [hd, if_neg h1, if_neg h2, if_neg h3, if_neg h4]

/-- Witness for `decodeUnicode_spec` at the concrete inputs 8220 and 65. -/
theorem decodeUnicode_spec_witness :
    decodeUnicode 8220 = ['"'] ∧ decodeUnicode 65 = ['A'] := by
  constructor
  · exact (decodeUnicode_spec 8220).1 (by decide)
  · have h := (decodeUnicode_spec 65).2.2.2.1 (by decide)
    simpa using h

/-! ### Brace balance of the cleaning passes (C4, C1) -/

theorem okFrom_cons_iff (d : Int) (c : Char) (cs : List Char) :
    okFrom d (c :: cs) = true ↔
      0 ≤ d + braceDelta c ∧ okFrom (d + braceDelta c) cs = true := by
  simp [okFrom]

theorem okFrom_nil_iff (d : Int) : okFrom d [] = true ↔ d = 0 := by
  simp [okFrom]

theorem updDepth_cast (c : Char) (k : Nat) (h : 1 ≤ k) :
    (updDepth c k : Int) = (k : Int) + braceDelta c := by
  unfold updDepth braceDelta
  split_ifs <;> omega

/-- Balance preservation for the destination-group stripper: from a state
with `d` open context braces (and `k` of them inside the skipped group), the
output is balanced in the outer context. -/
theorem stripStarAux_ok (s : List Char) (st : Option Nat) :
    ∀ d : Int, stCond st d → okFrom d s = true →
      okFrom (stOut st d) (stripStarAux s st) = true := by
  induction s, st using stripStarAux.induct with
  | case1 st =>
    intro d hc hok
    rw [okFrom_nil_iff] at hok
    subst hok
    cases st with
    | none => simp [stripStarAux, okFrom, stOut]
    | some k =>
      exfalso
      simp only [stCond] at hc
      omega
  | case2 c cs k hupd ih =>
    intro d hc hok
    simp only [stCond] at hc
    simp only [stOut]
    obtain ⟨hk1, hkd⟩ := hc
    rw [okFrom_cons_iff] at hok
    have hcast := updDepth_cast c k hk1
    rw [hupd] at hcast
    rw [stripStarAux.eq_2, if_pos hupd]
    have hd1 : d - (k : Int) = d + braceDelta c := by omega
    rw [hd1]
    have := ih (d + braceDelta c) (by simp only [stCond]; omega) hok.2
    simpa [stOut] using this
  | case3 c cs k hupd ih =>
    intro d hc hok
    simp only [stCond] at hc
    simp only [stOut]
    obtain ⟨hk1, hkd⟩ := hc
    rw [okFrom_cons_iff] at hok
    have hcast := updDepth_cast c k hk1
    rw [stripStarAux.eq_2, if_neg hupd]
    have h1 : 1 ≤ updDepth c k := by omega
    have := ih (d + braceDelta c) (by simp only [stCond]; constructor <;> omega) hok.2
    simp only [stOut] at this
    have hd1 : d - (k : Int) = d + braceDelta c - (updDepth c k : Int) := by omega
    rw [hd1]
    exact this
  | case4 rest ih =>
    intro d hc hok
    simp only [stCond] at hc
    simp only [stOut]
    rw [okFrom_cons_iff] at hok
    rw [okFrom_cons_iff] at hok
    rw [okFrom_cons_iff] at hok
    simp only [show braceDelta '\\' = 0 from rfl, show braceDelta '*' = 0 from rfl,
      show braceDelta '{' = 1 from rfl, add_zero] at hok
    rw [stripStarAux.eq_3]
    have := ih (d + 1) (by simp only [stCond]; constructor <;> omega) hok.2.2.2
    simp only [stOut] at this
    have hd1 : d = d + 1 - ((1 : Nat) : Int) := by omega
    rw [hd1]
    exact this
  | case5 c cs hne ih =>
    intro d hc hok
    simp only [stCond] at hc
    simp only [stOut]
    rw [okFrom_cons_iff] at hok
    rw [stripStarAux.eq_4 c cs hne, okFrom_cons_iff]
    refine ⟨hok.1, ?_⟩
    have := ih (d + braceDelta c) (by
      simp only [stCond]
      have : (0 : Int) ≤ d + braceDelta c := hok.1
      omega) hok.2
    simpa [stOut] using this

/-- Balance preservation for the keyword-group stripper. -/
theorem stripKwAux_ok (kws : List (List Char)) (s : List Char) (st : Option Nat) :
    ∀ d : Int, stCond st d → okFrom d s = true →
      okFrom (stOut st d) (stripKwAux kws s st) = true := by
  induction s, st using stripKwAux.induct kws with
  | case1 st =>
    intro d hc hok
    rw [okFrom_nil_iff] at hok
    subst hok
    cases st with
    | none => simp [stripKwAux, okFrom, stOut]
    | some k =>
      exfalso
      simp only [stCond] at hc
      omega
  | case2 c cs k hupd ih =>
    intro d hc hok
    simp only [stCond] at hc
    simp only [stOut]
    obtain ⟨hk1, hkd⟩ := hc
    rw [okFrom_cons_iff] at hok
    have hcast := updDepth_cast c k hk1
    rw [hupd] at hcast
    rw [stripKwAux.eq_2, if_pos hupd]
    have hd1 : d - (k : Int) = d + braceDelta c := by omega
    rw [hd1]
    have := ih (d + braceDelta c) (by simp only [stCond]; omega) hok.2
    simpa [stOut] using this
  | case3 c cs k hupd ih =>
    intro d hc hok
    simp only [stCond] at hc
    simp only [stOut]
    obtain ⟨hk1, hkd⟩ := hc
    rw [okFrom_cons_iff] at hok
    have hcast := updDepth_cast c k hk1
    rw [stripKwAux.eq_2, if_neg hupd]
    have h1 : 1 ≤ updDepth c k := by omega
    have := ih (d + braceDelta c) (by simp only [stCond]; constructor <;> omega) hok.2
    simp only [stOut] at this
    have hd1 : d - (k : Int) = d + braceDelta c - (updDepth c k : Int) := by omega
    rw [hd1]
    exact this
  | case4 rest hkw ih =>
    intro d hc hok
    simp only [stCond] at hc
    simp only [stOut]
    rw [okFrom_cons_iff] at hok
    rw [okFrom_cons_iff] at hok
    simp only [show braceDelta '\\' = 0 from rfl,
      show braceDelta '{' = 1 from rfl, add_zero] at hok
    rw [stripKwAux.eq_3, if_pos hkw]
    have := ih (d + 1) (by simp only [stCond]; constructor <;> omega) hok.2.2
    simp only [stOut] at this
    have hd1 : d = d + 1 - ((1 : Nat) : Int) := by omega
    rw [hd1]
    exact this
  | case5 rest hkw ih =>
    intro d hc hok
    simp only [stCond] at hc
    simp only [stOut]
    rw [okFrom_cons_iff] at hok
    rw [stripKwAux.eq_3, if_neg hkw, okFrom_cons_iff]
    refine ⟨?_, ?_⟩
    · simpa [braceDelta] using hok.1
    · have := ih (d + braceDelta '{') (by
        simp only [stCond]
        have := hok.1
        simp only [braceDelta] at this ⊢
        norm_num at this ⊢
        omega) hok.2
      simpa [stOut] using this
  | case6 c cs hne ih =>
    intro d hc hok
    simp only [stCond] at hc
    simp only [stOut]
    rw [okFrom_cons_iff] at hok
    rw [stripKwAux.eq_4 kws c cs hne, okFrom_cons_iff]
    refine ⟨hok.1, ?_⟩
    have := ih (d + braceDelta c) (by
      simp only [stCond]
      have : (0 : Int) ≤ d + braceDelta c := hok.1
      omega) hok.2
    simpa [stOut] using this

/-- C4: for every brace-balanced input document, the result of stripping
destination (starred) groups followed by stripping recognized keyword groups
is again brace-balanced: the brace depth never goes negative and returns to
zero at the end of the cleaned document. -/
theorem cleaned_balanced (s : List Char) (h : okFrom 0 s = true) :
    okFrom 0 (stripGroupsByKeyword stripKeywords (stripStarGroups s)) = true := by
  have h1 := stripStarAux_ok s none 0 (by simp [stCond]) h
  simp only [stOut] at h1
  have h2 := stripKwAux_ok stripKeywords (stripStarGroups s) none 0 (by simp [stCond]) h1
  simpa [stOut] using h2

/-! ### C1: behaviour on unbalanced documents -/

/-- Counterexample to C1: on the document `{\*hello`, in which a destination
group is opened and the end of the text is reached before the brace depth
returns to zero, the conversion does not fail: it succeeds and writes a
complete output document (the header line and the closing brace). -/
theorem convert_unbalanced_cex :
    convert "styles.tsv" demoStylesText false ("\x7b\\*hello".toList) =
      Except.ok (("HDR\n\x7d").toList) := by
  rfl

theorem normNewlines_id (s : List Char) (h : ∀ c ∈ s, c ≠ '\r') :
    normNewlines s = s := by
  induction s using normNewlines.induct with
  | case1 rest ih =>
    exfalso
    exact (h '\r' (by simp)) rfl
  | case2 c cs hne ih =>
    rw [normNewlines.eq_2 c cs hne]
    rw [ih (fun c hc => h c (List.mem_cons_of_mem _ hc))]
  | case3 => rfl

theorem stripStarAux_skip_gen (x : List Char) : ∀ d : Nat, neverCloses d x = true →
    stripStarAux x (some d) = [] := by
  induction x with
  | nil =>
    intro d _
    rfl
  | cons c cs ih =>
    intro d h
    rw [show neverCloses d (c :: cs)
        = ((updDepth c d != 0) && neverCloses (updDepth c d) cs) from rfl,
      Bool.and_eq_true_iff] at h
    rw [stripStarAux.eq_2, if_neg (by simpa using h.1)]
    exact ih _ h.2

theorem starSt_cons_none (c : Char) (cs : List Char)
    (h : ∀ rest, c = '{' → cs = '\\' :: '*' :: rest → False) :
    starSt (c :: cs) none = starSt cs none := by
  rw [starSt.eq_def]
  split
  · rename_i heq
    exact absurd heq (by simp)
  · rename_i heq
    exact absurd heq (by simp)
  · rename_i heqL heq
    injection heqL with h1 h2
    exact (h _ h1 h2).elim
  · rename_i hov heqL heq
    injection heqL with h1 h2
    subst h1
    subst h2
    rfl

theorem stripStarAux_cons_none (c : Char) (cs : List Char)
    (h : ∀ rest, c = '{' → cs = '\\' :: '*' :: rest → False) :
    stripStarAux (c :: cs) none = c :: stripStarAux cs none := by
  rw [stripStarAux.eq_def]
  split
  · rename_i heq
    exact absurd heq (by simp)
  · rename_i heq
    exact absurd heq (by simp)
  · rename_i heqL heq
    injection heqL with h1 h2
    exact (h _ h1 h2).elim
  · rename_i hov heqL heq
    injection heqL with h1 h2
    subst h1
    subst h2
    rfl

theorem neverCloses_normNewlines (x : List Char) : ∀ d : Nat,
    neverCloses d x = true → neverCloses d (normNewlines x) = true := by
  induction x using normNewlines.induct with
  | case1 rest ih =>
    intro d h
    rw [show neverCloses d ('\r' :: '\n' :: rest)
        = ((d != 0) && ((d != 0) && neverCloses d rest)) from rfl,
      Bool.and_eq_true_iff, Bool.and_eq_true_iff] at h
    rw [normNewlines.eq_1,
      show neverCloses d ('\n' :: normNewlines rest)
        = ((d != 0) && neverCloses d (normNewlines rest)) from rfl,
      Bool.and_eq_true_iff]
    exact ⟨h.1, ih d h.2.2⟩
  | case2 c cs hne ih =>
    intro d h
    rw [show neverCloses d (c :: cs)
        = ((updDepth c d != 0) && neverCloses (updDepth c d) cs) from rfl,
      Bool.and_eq_true_iff] at h
    rw [normNewlines.eq_2 c cs hne,
      show neverCloses d (c :: normNewlines cs)
        = ((updDepth c d != 0) && neverCloses (updDepth c d) (normNewlines cs)) from rfl,
      Bool.and_eq_true_iff]
    exact ⟨h.1, ih _ h.2⟩
  | case3 =>
    intro d h
    exact h

theorem normNewlines_append (A z : List Char) :
    A.getLast? ≠ some '\r' →
    normNewlines (A ++ z) = normNewlines A ++ normNewlines z := by
  induction A using normNewlines.induct with
  | case1 rest ih =>
    intro h
    have h2 : rest.getLast? ≠ some '\r' := by
      cases rest with
      | nil => simp
      | cons r rs =>
        rw [List.getLast?_cons_cons, List.getLast?_cons_cons] at h
        exact h
    rw [show ('\r' :: '\n' :: rest) ++ z = '\r' :: '\n' :: (rest ++ z) from rfl,
      normNewlines.eq_1, normNewlines.eq_1, ih h2, List.cons_append]
  | case2 c cs hne ih =>
    intro h
    have hne2 : ∀ rest, c = '\r' → cs ++ z = '\n' :: rest → False := by
      intro rest hc hcs
      cases cs with
      | nil =>
        simp only [List.getLast?_singleton] at h
        exact h (by rw [hc])
      | cons a t =>
        rw [List.cons_append] at hcs
        injection hcs with h1 h2
        exact hne _ hc (by rw [h1])
    have h2 : cs.getLast? ≠ some '\r' := by
      cases cs with
      | nil => simp
      | cons a t =>
        rw [List.getLast?_cons_cons] at h
        exact h
    rw [List.cons_append, normNewlines.eq_2 c (cs ++ z) hne2,
      normNewlines.eq_2 c cs hne, ih h2, List.cons_append]
  | case3 =>
    intro _
    rfl

theorem stripStar_drop (x : List Char) (hx : neverCloses 1 x = true)
    (A : List Char) (st : Option Nat) :
    starSt A st = none →
    stripStarAux (A ++ '{' :: '\\' :: '*' :: x) st = stripStarAux A st := by
  induction A, st using starSt.induct with
  | case1 st =>
    intro hA
    have hst : st = none := hA
    subst hst
    rw [List.nil_append, stripStarAux.eq_3, stripStarAux_skip_gen x 1 hx]
    rfl
  | case2 c cs d h0 ih =>
    intro hA
    rw [starSt.eq_2, if_pos h0] at hA
    rw [List.cons_append, stripStarAux.eq_2, stripStarAux.eq_2, if_pos h0, if_pos h0,
      ih hA]
  | case3 c cs d h0 ih =>
    intro hA
    rw [starSt.eq_2, if_neg h0] at hA
    rw [List.cons_append, stripStarAux.eq_2, stripStarAux.eq_2, if_neg h0, if_neg h0,
      ih hA]
  | case4 rest ih =>
    intro hA
    rw [starSt.eq_3] at hA
    rw [show ('{' :: '\\' :: '*' :: rest) ++ '{' :: '\\' :: '*' :: x
        = '{' :: '\\' :: '*' :: (rest ++ '{' :: '\\' :: '*' :: x) from rfl,
      stripStarAux.eq_3, stripStarAux.eq_3, ih hA]
  | case5 c cs hside ih =>
    intro hA
    rw [starSt_cons_none c cs hside] at hA
    have hside2 : ∀ rest, c = '{' → cs ++ '{' :: '\\' :: '*' :: x = '\\' :: '*' :: rest
        → False := by
      intro rest hc hcs
      rcases cs with _ | ⟨a, _ | ⟨b, t⟩⟩
      · rw [List.nil_append] at hcs
        injection hcs with h1 _
        exact absurd h1 (by decide)
      · rw [List.cons_append, List.nil_append] at hcs
        injection hcs with h1 h2
        injection h2 with h3 _
        exact absurd h3 (by decide)
      · rw [List.cons_append, List.cons_append] at hcs
        injection hcs with h1 h2
        injection h2 with h3 _
        exact hside t hc (by rw [h1, h3])
    rw [List.cons_append, stripStarAux_cons_none c _ hside2,
      stripStarAux_cons_none c cs hside, ih hA]

/-- C1, amended: the claim as stated is false (see `convert_unbalanced_cex`).
What holds instead: for every document consisting of leading text (not ending
in a bare carriage return) whose scan leaves the destination-group scanner at
top level, followed by a `\x7b\*` opening whose group is never closed — the
remaining text never returns the brace depth to zero — the conversion does
not fail: the unterminated destination group and everything after it are
silently discarded, and the conversion completes successfully, producing
exactly the complete output document it produces for the leading text alone
(the configured header lines, the leading text's entry lines, and the
closing brace). -/
theorem convert_unbalanced_succeeds (path : String) (text : List Char) (st : Styles)
    (caps : Bool) (A x : List Char)
    (hst : readStyles path text = Except.ok st)
    (hlast : A.getLast? ≠ some '\r')
    (hA : starSt (normNewlines A) none = none)
    (hx : neverCloses 1 x = true) :
    convert path text caps (A ++ "\x7b\\*".toList ++ x)
        = Except.ok (joinLines (mainLines st caps A))
    ∧ convert path text caps A = Except.ok (joinLines (mainLines st caps A)) := by
  have key : extractEntriesFromRtf (A ++ "\x7b\\*".toList ++ x)
      = extractEntriesFromRtf A := by
    unfold extractEntriesFromRtf
    have h1 : normNewlines (A ++ "\x7b\\*".toList ++ x)
        = normNewlines A ++ '{' :: '\\' :: '*' :: normNewlines x := by
      rw [List.append_assoc,
        show "\x7b\\*".toList ++ x = '{' :: '\\' :: '*' :: x from rfl,
        normNewlines_append A _ hlast]
      congr 1
    have h2 : stripStarGroups (normNewlines A ++ '{' :: '\\' :: '*' :: normNewlines x)
        = stripStarGroups (normNewlines A) := by
      unfold stripStarGroups
      exact stripStar_drop (normNewlines x) (neverCloses_normNewlines x 1 hx)
        (normNewlines A) none hA
    rw [h1, h2]
  constructor
  · unfold convert
    rw [hst]
    unfold mainLines
    rw [key]
  · unfold convert
    rw [hst]

/-- Witness for `convert_unbalanced_succeeds`: the document `A` + newline
followed by an unterminated `\x7b\*secret\x7bmore` destination group converts
to exactly the complete document produced for the leading text alone — the
header line, the entry line for `A`, and the closing brace. -/
theorem convert_unbalanced_succeeds_witness :
    readStyles "styles.tsv" demoStylesText = Except.ok demoStyles
    ∧ neverCloses 1 ("secret\x7bmore".toList) = true
    ∧ starSt (normNewlines ("A\n".toList)) none = none
    ∧ convert "styles.tsv" demoStylesText false
        ("A\n".toList ++ "\x7b\\*".toList ++ "secret\x7bmore".toList)
      = Except.ok (joinLines (mainLines demoStyles false ("A\n".toList))) := by
  refine ⟨by rfl, by decide, by decide, ?_⟩
  exact (convert_unbalanced_succeeds "styles.tsv" demoStylesText demoStyles false
    ("A\n".toList) ("secret\x7bmore".toList) (by rfl) (by decide) (by decide)
    (by decide)).1

/-- Witness for `cleaned_balanced` on a concrete balanced document. -/
theorem cleaned_balanced_witness :
    okFrom 0 (("\x7b\\rtf1\x7b\\*\\gen x\x7d\x7b\\fonttbl\x7b\\f0 A\x7d\x7d hi\x7d").toList) = true
    ∧ okFrom 0 (stripGroupsByKeyword stripKeywords (stripStarGroups
        (("\x7b\\rtf1\x7b\\*\\gen x\x7d\x7b\\fonttbl\x7b\\f0 A\x7d\x7d hi\x7d").toList))) = true := by
  constructor
  · decide
  · exact cleaned_balanced _ (by decide)

/-! ### C7: style-table validation -/

/-- C7: if the style table is missing any of the four required keys or
contains zero header lines, the run fails with a configuration error raised
before the input document is read: for a fixed styles source the conversion
returns the same error for every document and option, and no output text is
produced. -/
theorem readStyles_validation (path : String) (text : List Char)
    (h : (∃ k ∈ requiredStyleKeys,
            (List.lookup k ((text.splitOn '\n').foldl styleRow ([], [])).2).isNone)
         ∨ ((text.splitOn '\n').foldl styleRow ([], [])).1 = []) :
    ∃ msg, readStyles path text = Except.error msg
      ∧ ∀ (caps : Bool) (rtf : List Char),
          convert path text caps rtf = Except.error msg := by
  have herr : ∃ msg, readStyles path text = Except.error msg := by
    unfold readStyles
    cases hfind : requiredStyleKeys.find?
        (fun k => (List.lookup k ((text.splitOn '\n').foldl styleRow ([], [])).2).isNone) with
    | some k =>
      simp only [hfind]
      exact ⟨_, rfl⟩
    | none =>
      simp only [hfind]
      rcases h with ⟨k, hk, hnone⟩ | hempty
      · exfalso
        have := List.find?_eq_none.mp hfind k hk
        exact absurd hnone this
      · rw [if_pos (by simp [hempty])]
        exact ⟨_, rfl⟩
  obtain ⟨msg, hmsg⟩ := herr
  refine ⟨msg, hmsg, fun caps rtf => ?_⟩
  unfold convert
  rw [hmsg]

/-- Witness for `readStyles_validation`: a table missing `level2_prefix`
fails with the corresponding message, whatever the document. -/
theorem readStyles_validation_witness :
    readStyles "styles.tsv" badStylesText =
      Except.error "Missing style: level2_prefix in styles.tsv"
    ∧ convert "styles.tsv" badStylesText false ("anything".toList) =
        Except.error "Missing style: level2_prefix in styles.tsv" := by
  obtain ⟨msg, h1, h2⟩ := readStyles_validation "styles.tsv" badStylesText
    (Or.inl ⟨"level2_prefix", by decide, by decide⟩)
  have hc : readStyles "styles.tsv" badStylesText =
      Except.error "Missing style: level2_prefix in styles.tsv" := rfl
  rw [hc] at h1
  injection h1 with h1
  subst h1
  exact ⟨hc, h2 false ("anything".toList)⟩

/-! ### C6: output assembly -/

theorem foldl_emit (f : Entry → Option (List Char)) :
    ∀ (es : List Entry) (init : List (List Char)),
      es.foldl (fun acc e => match f e with | some l => acc ++ [l] | none => acc) init
        = init ++ es.filterMap f := by
  intro es
  induction es with
  | nil => simp
  | cons e es ih =>
    intro init
    rw [List.foldl_cons, List.filterMap_cons]
    cases hf : f e with
    | some l =>
      simp only [hf]
      rw [ih (init ++ [l])]
      simp
    | none =>
      simp only [hf]
      exact ih init

/-- C6: for every input document and valid style table, the produced output
text is exactly the configured header lines, verbatim and in order, followed
by one re-emitted line per surviving entry in document paragraph order,
followed by a single closing `}`; an entry whose body is empty after
sanitization and escaping produces no output line. -/
theorem convert_output_shape (path : String) (text : List Char) (st : Styles)
    (caps : Bool) (rtf : List Char) (hst : readStyles path text = Except.ok st) :
    convert path text caps rtf =
      Except.ok (joinLines (st.headerLines
        ++ (extractEntriesFromRtf rtf).filterMap (emitLine st caps) ++ [['}']]))
    ∧ (∀ label body lt, escapeRtfText body caps = [] →
        emitLine st caps (Entry.list label body lt) = none)
    ∧ (∀ body, escapeRtfText body caps = [] →
        emitLine st caps (Entry.text body) = none) := by
  refine ⟨?_, ?_, ?_⟩
  · have hm : mainLines st caps rtf =
        st.headerLines ++ (extractEntriesFromRtf rtf).filterMap (emitLine st caps) ++ [['}']] := by
      simp only [mainLines]
      rw [foldl_emit]
    unfold convert
    rw [hst]
    show Except.ok (joinLines (mainLines st caps rtf)) = _
    rw [hm]
  · intro label body lt he
    unfold emitLine
    simp [he]
  · intro body he
    unfold emitLine
    simp [he]

/-! ### C3: list-label classification -/

/-- Counterexample to C3: a marker-holder content that contains `1.` followed
by `\tab` but also contains the bullet byte-escape `\'b7\tab`; the bullet
checks run first, so the classifier returns the bullet label, not an
ordered-numeric classification with label `1.`. -/
theorem getListLabel_precedence_cex :
    findOrdered (("\x7b\\listtext \\'b7\\tab 1.\\tab\x7d").toList) = some ("1.".toList)
    ∧ getListLabel (("\x7b\\listtext \\'b7\\tab 1.\\tab\x7d").toList) =
        some (bulletLabel, LType.bullet)
    ∧ getListLabel (("\x7b\\listtext \\'b7\\tab 1.\\tab\x7d").toList) ≠
        some ("1.".toList, LType.ordered) := by
  refine ⟨by decide, by decide, by decide⟩

theorem matchOrderedAt_shape (s lbl : List Char) (h : matchOrderedAt s = some lbl) :
    (∃ ds, ds ≠ [] ∧ (∀ c ∈ ds, isAsciiDigit c = true) ∧ lbl = ds ++ ['.'])
    ∨ (∃ c, isAsciiLetter c = true ∧ lbl = [c, '.']) := by
  cases s with
  | nil => exact absurd h (by simp [matchOrderedAt])
  | cons c cs =>
    rw [matchOrderedAt.eq_def] at h
    split at h
    · exact absurd h (by simp)
    · rename_i x c2 cs2 heq
      injection heq with e1 e2
      subst e1
      subst e2
      by_cases hd : isAsciiDigit c = true
      · rw [if_pos hd] at h
        left
        split at h
        · split at h
          · injection h with h
            refine ⟨(c :: cs).takeWhile isAsciiDigit, ?_, ?_, h.symm⟩
            · simp [List.takeWhile_cons, hd]
            · intro x hx
              exact List.mem_takeWhile_imp hx
          · exact absurd h (by simp)
        · exact absurd h (by simp)
      · rw [if_neg hd] at h
        by_cases hl : isAsciiLetter c = true
        · rw [if_pos hl] at h
          right
          refine ⟨c, hl, ?_⟩
          split at h
          · split at h
            · injection h with h
              exact h.symm
            · exact absurd h (by simp)
          · exact absurd h (by simp)
        · rw [if_neg hl] at h
          exact absurd h (by simp)

theorem findOrdered_shape (s : List Char) : ∀ lbl : List Char,
    findOrdered s = some lbl →
    (∃ ds, ds ≠ [] ∧ (∀ c ∈ ds, isAsciiDigit c = true) ∧ lbl = ds ++ ['.'])
    ∨ (∃ c, isAsciiLetter c = true ∧ lbl = [c, '.']) := by
  induction s with
  | nil =>
    intro lbl h
    exact absurd h (by simp [findOrdered])
  | cons c cs ih =>
    intro lbl h
    rw [findOrdered.eq_2] at h
    revert h
    split
    · intro h
      injection h with h
      subst h
      next hm => exact matchOrderedAt_shape _ _ hm
    · intro h
      exact ih lbl h

/-- C3, amended: the classifier checks the bullet patterns first; when the
marker-holder content is non-empty, matches neither the bullet byte-escape
nor a bullet Unicode escape, and the ordered-label regex finds a match, the
entry is classified with the source's single `ordered` tag and the literal
matched label (`digits.` or `letter.`) is captured; the claim's
ordered-numeric versus ordered-alpha distinction is recovered from the
captured label, which is either one or more digits followed by `.` or a
single letter followed by `.`. -/
theorem getListLabel_ordered (lg lbl : List Char)
    (hne : lg ≠ [])
    (hb : containsSub ("\\'b7\\tab".toList) (toLowerL lg) = false)
    (hu : (match findUMatch lg with
           | some code => code == 8226 || code == 9679
           | none => false) = false)
    (ho : findOrdered lg = some lbl) :
    getListLabel lg = some (lbl, LType.ordered)
    ∧ ((∃ ds, ds ≠ [] ∧ (∀ c ∈ ds, isAsciiDigit c = true) ∧ lbl = ds ++ ['.'])
       ∨ (∃ c, isAsciiLetter c = true ∧ lbl = [c, '.'])) := by
  constructor
  · unfold getListLabel
    rw [if_neg hne, hb, hu]
    simp only [Bool.false_eq_true, if_false, ho]
  · exact findOrdered_shape lg lbl ho

/-- Witness for `getListLabel_ordered` at the spec's scenario contents
`{\listtext 1.\tab}` and `{\listtext a.\tab}`. -/
theorem getListLabel_ordered_witness :
    getListLabel (("\x7b\\listtext 1.\\tab\x7d").toList) = some ("1.".toList, LType.ordered)
    ∧ getListLabel (("\x7b\\listtext a.\\tab\x7d").toList) = some ("a.".toList, LType.ordered) := by
  constructor
  · exact (getListLabel_ordered (("\x7b\\listtext 1.\\tab\x7d").toList) ("1.".toList)
      (by decide) (by decide) (by decide) (by decide)).1
  · exact (getListLabel_ordered (("\x7b\\listtext a.\\tab\x7d").toList) ("a.".toList)
      (by decide) (by decide) (by decide) (by decide)).1

/-! ### C2: bold-span marker balance -/

theorem sanScan_open (rest : List Char) (bold : Bool) (stack : List Bool) :
    sanScan ('{' :: rest) bold stack = sanScan rest bold (bold :: stack) := by
  rw [sanScan.eq_2, if_pos rfl]

theorem sanScan_close_eq (rest : List Char) (bold : Bool) (stack : List Bool)
    (h : stack.headD false = bold) :
    sanScan ('}' :: rest) bold stack = sanScan rest bold stack.tail := by
  simp only [sanScan.eq_2, show ¬(('}' : Char) = '{') from by decide, if_false, if_true,
    reduceIte, h]

theorem sanScan_close_ne (rest : List Char) (bold : Bool) (stack : List Bool)
    (h : ¬stack.headD false = bold) :
    sanScan ('}' :: rest) bold stack =
      ((if stack.headD false then Tok.on else Tok.off)
        :: (sanScan rest (stack.headD false) stack.tail).1,
       (sanScan rest (stack.headD false) stack.tail).2) := by
  simp only [sanScan.eq_2, show ¬(('}' : Char) = '{') from by decide, reduceIte, h, if_false]

theorem sanScan_bs_end (rest : List Char) (bold : Bool) (stack : List Bool)
    (h : rest.head? = none) :
    sanScan ('\\' :: rest) bold stack = ([], bold) := by
  simp only [sanScan.eq_2, reduceIte, h, show ¬(('\\' : Char) = '{') from by decide,
    show ¬(('\\' : Char) = '}') from by decide]

theorem sanScan_esc (rest : List Char) (bold : Bool) (stack : List Bool) (next : Char)
    (hh : rest.head? = some next) (hsp : isSpecial next = true) :
    sanScan ('\\' :: rest) bold stack =
      (Tok.ch next :: (sanScan rest.tail bold stack).1, (sanScan rest.tail bold stack).2) := by
  simp only [sanScan.eq_2, reduceIte, hh, hsp, if_true,
    show ¬(('\\' : Char) = '{') from by decide, show ¬(('\\' : Char) = '}') from by decide]

theorem sanScan_u (rest : List Char) (bold : Bool) (stack : List Bool)
    (hh : rest.head? = some 'u') :
    sanScan ('\\' :: rest) bold stack =
      ((uEmitted rest.tail).map Tok.ch ++ (sanScan (uRest rest.tail) bold stack).1,
       (sanScan (uRest rest.tail) bold stack).2) := by
  simp only [sanScan.eq_2, reduceIte, hh, show isSpecial 'u' = false from by decide,
    Bool.false_eq_true, if_false, if_true,
    show ¬(('\\' : Char) = '{') from by decide, show ¬(('\\' : Char) = '}') from by decide]

theorem sanScan_hex_some (rest : List Char) (bold : Bool) (stack : List Bool) (ch : Char)
    (hh : rest.head? = some '\'') (hhex : hexByteAt rest.tail = some ch) :
    sanScan ('\\' :: rest) bold stack =
      (Tok.ch ch :: (sanScan (rest.tail.drop 2) bold stack).1,
       (sanScan (rest.tail.drop 2) bold stack).2) := by
  simp only [sanScan.eq_2, reduceIte, hh, hhex, show isSpecial '\'' = false from by decide,
    Bool.false_eq_true, if_false, if_true, show ¬(('\'' : Char) = 'u') from by decide,
    show ¬(('\\' : Char) = '{') from by decide, show ¬(('\\' : Char) = '}') from by decide]

theorem sanScan_hex_none (rest : List Char) (bold : Bool) (stack : List Bool)
    (hh : rest.head? = some '\'') (hhex : hexByteAt rest.tail = none) :
    sanScan ('\\' :: rest) bold stack = sanScan rest.tail bold stack := by
  simp only [sanScan.eq_2, reduceIte, hh, hhex, show isSpecial '\'' = false from by decide,
    Bool.false_eq_true, if_false, if_true, show ¬(('\'' : Char) = 'u') from by decide,
    show ¬(('\\' : Char) = '{') from by decide, show ¬(('\\' : Char) = '}') from by decide]

theorem sanScan_word_b_eq (rest : List Char) (bold : Bool) (stack : List Bool) (next : Char)
    (hh : rest.head? = some next) (hsp : isSpecial next = false) (hu : ¬next = 'u')
    (hq : ¬next = '\'') (hl : isAsciiLetter next = true)
    (hw : toLowerL (rest.takeWhile isAsciiLetter) = ['b'])
    (hb : (!(wordParam rest == some 0)) = bold) :
    sanScan ('\\' :: rest) bold stack = sanScan (wordRest rest) bold stack := by
  simp only [sanScan.eq_2, reduceIte, hh, hsp, Bool.false_eq_true, if_false, if_true, hu, hq,
    hl, hw, hb,
    show ¬(('\\' : Char) = '{') from by decide, show ¬(('\\' : Char) = '}') from by decide]

theorem sanScan_word_b_ne (rest : List Char) (bold : Bool) (stack : List Bool) (next : Char)
    (hh : rest.head? = some next) (hsp : isSpecial next = false) (hu : ¬next = 'u')
    (hq : ¬next = '\'') (hl : isAsciiLetter next = true)
    (hw : toLowerL (rest.takeWhile isAsciiLetter) = ['b'])
    (hb : ¬(!(wordParam rest == some 0)) = bold) :
    sanScan ('\\' :: rest) bold stack =
      ((if (!(wordParam rest == some 0)) then Tok.on else Tok.off)
        :: (sanScan (wordRest rest) (!(wordParam rest == some 0)) stack).1,
       (sanScan (wordRest rest) (!(wordParam rest == some 0)) stack).2) := by
  simp only [sanScan.eq_2, reduceIte, hh, hsp, Bool.false_eq_true, if_false, if_true, hu, hq,
    hl, hw, hb,
    show ¬(('\\' : Char) = '{') from by decide, show ¬(('\\' : Char) = '}') from by decide]

theorem sanScan_word_other (rest : List Char) (bold : Bool) (stack : List Bool) (next : Char)
    (hh : rest.head? = some next) (hsp : isSpecial next = false) (hu : ¬next = 'u')
    (hq : ¬next = '\'') (hl : isAsciiLetter next = true)
    (hw : ¬toLowerL (rest.takeWhile isAsciiLetter) = ['b']) :
    sanScan ('\\' :: rest) bold stack = sanScan (wordRest rest) bold stack := by
  simp only [sanScan.eq_2, reduceIte, hh, hsp, Bool.false_eq_true, if_false, if_true, hu, hq,
    hl, hw,
    show ¬(('\\' : Char) = '{') from by decide, show ¬(('\\' : Char) = '}') from by decide]

theorem sanScan_bs_other (rest : List Char) (bold : Bool) (stack : List Bool) (next : Char)
    (hh : rest.head? = some next) (hsp : isSpecial next = false) (hu : ¬next = 'u')
    (hq : ¬next = '\'') (hl : isAsciiLetter next = false) :
    sanScan ('\\' :: rest) bold stack = sanScan rest.tail bold stack := by
  simp only [sanScan.eq_2, reduceIte, hh, hsp, Bool.false_eq_true, if_false, if_true, hu, hq,
    hl,
    show ¬(('\\' : Char) = '{') from by decide, show ¬(('\\' : Char) = '}') from by decide]

theorem sanScan_plainc (rest : List Char) (bold : Bool) (stack : List Bool) (c : Char)
    (h1 : ¬c = '{') (h2 : ¬c = '}') (h3 : ¬c = '\\') :
    sanScan (c :: rest) bold stack =
      (Tok.ch c :: (sanScan rest bold stack).1, (sanScan rest bold stack).2) := by
  simp only [sanScan.eq_2, h1, h2, h3, if_false]
theorem markersOf_ch (c : Char) (ts : List Tok) :
    markersOf (Tok.ch c :: ts) = markersOf ts := rfl

theorem markersOf_mark (b : Bool) (ts : List Tok) :
    markersOf ((if b then Tok.on else Tok.off) :: ts) = b :: markersOf ts := by
  cases b <;> rfl

theorem markersOf_map_ch (l : List Char) (ts : List Tok) :
    markersOf (l.map Tok.ch ++ ts) = markersOf ts := by
  induction l with
  | nil => rfl
  | cons c cs ih =>
    simp only [List.map_cons, List.cons_append, markersOf_ch]
    exact ih

theorem getLastD_cons (a : Bool) (l : List Bool) (d : Bool) :
    (a :: l).getLastD d = l.getLastD a := by
  cases l <;> simp [List.getLastD]

theorem altAfter_mark (bold prev : Bool) (ms : List Bool) (h : ¬prev = bold) :
    altAfter bold (prev :: ms) = altAfter prev ms := by
  cases bold <;> cases prev <;> simp_all [altAfter]

theorem sanScan_marks (s : List Char) (bold : Bool) (stack : List Bool) :
    altAfter bold (markersOf (sanScan s bold stack).1) = true
    ∧ (markersOf (sanScan s bold stack).1).getLastD bold = (sanScan s bold stack).2 := by
  induction s, bold, stack using sanScan.induct with
  | case1 bold st => simp [sanScan.eq_1, markersOf, altAfter, List.getLastD]
  | case2 rest bold stack ih =>
    rw [sanScan_open]
    exact ih
  | case3 rest stack prev stack' hbs ih =>
    rw [sanScan_close_eq rest prev stack rfl]
    exact ih
  | case4 rest bold stack prev stack' hne hbs ih =>
    rw [sanScan_close_ne rest bold stack hne]
    constructor
    · rw [markersOf_mark, altAfter_mark _ _ _ hne]
      exact ih.1
    · rw [markersOf_mark, getLastD_cons]
      exact ih.2
  | case5 rest bold stack hnone hb1 hb2 =>
    rw [sanScan_bs_end rest bold stack hnone]
    simp [markersOf, altAfter, List.getLastD]
  | case6 rest bold stack next hh hsp hb1 hb2 ih =>
    rw [sanScan_esc rest bold stack next hh hsp]
    simp only [markersOf_ch]
    exact ih
  | case7 rest bold stack hb1 hb2 hh hsp ih =>
    rw [sanScan_u rest bold stack hh]
    simp only [markersOf_map_ch]
    exact ih
  | case8 rest bold stack ch hhex hb1 hb2 hh hsp hu ih =>
    rw [sanScan_hex_some rest bold stack ch hh hhex]
    simp only [markersOf_ch]
    exact ih
  | case9 rest bold stack hhex hb1 hb2 hh hsp hu ih =>
    rw [sanScan_hex_none rest bold stack hh hhex]
    exact ih
  | case10 rest stack next hh hsp hu hq hl hw nextBold hb1 hb2 ih =>
    have hsp' : isSpecial next = false := by simpa using hsp
    rw [sanScan_word_b_eq rest nextBold stack next hh hsp' hu hq hl hw rfl]
    exact ih
  | case11 rest bold stack next hh hsp hu hq hl hw nextBold hne hb1 hb2 ih =>
    have hsp' : isSpecial next = false := by simpa using hsp
    rw [sanScan_word_b_ne rest bold stack next hh hsp' hu hq hl hw hne]
    constructor
    · rw [markersOf_mark, altAfter_mark _ _ _ hne]
      exact ih.1
    · rw [markersOf_mark, getLastD_cons]
      exact ih.2
  | case12 rest bold stack next hh hsp hu hq hl hw hb1 hb2 ih =>
    have hsp' : isSpecial next = false := by simpa using hsp
    rw [sanScan_word_other rest bold stack next hh hsp' hu hq hl hw]
    exact ih
  | case13 rest bold stack next hh hsp hu hq hl hb1 hb2 ih =>
    have hsp' : isSpecial next = false := by simpa using hsp
    have hl' : isAsciiLetter next = false := by simpa using hl
    rw [sanScan_bs_other rest bold stack next hh hsp' hu hq hl']
    exact ih
  | case14 c rest bold stack h1 h2 h3 ih =>
    rw [sanScan_plainc rest bold stack c h1 h2 h3]
    simp only [markersOf_ch]
    exact ih
theorem altAfter_append (b : Bool) (xs ys : List Bool) :
    altAfter b (xs ++ ys) = (altAfter b xs && altAfter (xs.getLastD b) ys) := by
  induction xs generalizing b with
  | nil => simp [altAfter, List.getLastD]
  | cons m ms ih =>
    simp only [List.cons_append, altAfter, List.append_eq, ih, getLastD_cons, Bool.and_assoc]

theorem renderToks_map_ch (l : List Char) : renderToks (l.map Tok.ch) = l := by
  induction l with
  | nil => rfl
  | cons c cs ih => simp [renderToks, renderTok, ih]

theorem sanScan_plain (m : List Char) : ∀ (bold : Bool) (stack : List Bool),
    (∀ c ∈ m, ¬c = '{' ∧ ¬c = '}' ∧ ¬c = '\\') →
    sanScan m bold stack = (m.map Tok.ch, bold) := by
  induction m with
  | nil =>
    intro bold stack _
    rw [sanScan.eq_1]
    rfl
  | cons c cs ih =>
    intro bold stack h
    obtain ⟨h1, h2, h3⟩ := h c (by simp)
    rw [sanScan_plainc cs bold stack c h1 h2 h3, ih bold stack (fun x hx => h x (by simp [hx]))]
    rfl

/-- Counterexample to C2: a fragment consisting of the literal characters
`[[B_ON]]` is copied verbatim by the sanitizer, so the output contains one
bold-ON marker occurrence and no OFF occurrence — the markers in the output
string are not balanced. -/
theorem sanitize_unbalanced_markers_cex :
    sanitizeRtfFragment ("[[B_ON]]".toList) = "[[B_ON]]".toList
    ∧ countSub onMark (sanitizeRtfFragment ("[[B_ON]]".toList)) = 1
    ∧ countSub offMark (sanitizeRtfFragment ("[[B_ON]]".toList)) = 0 := by
  have hscan := sanScan_plain ("[[B_ON]]".toList) false [] (by decide)
  have hfrag : sanitizeRtfFragment ("[[B_ON]]".toList) = "[[B_ON]]".toList := by
    simp only [sanitizeRtfFragment, sanMarked, hscan]
    decide
  refine ⟨hfrag, ?_, ?_⟩ <;> rw [hfrag] <;> decide

/-- C2, amended: the claim as stated over the output string is false (see
`sanitize_unbalanced_markers_cex`, where literal marker text is copied
verbatim).  What holds: the bold-span markers the sanitizer itself emits are
always balanced — in the token stream whose rendering is exactly the
sanitizer's pre-normalization output, the ON/OFF markers strictly alternate
starting with ON, and a trailing open bold span is force-closed by a final
OFF at fragment end, so no emitted span is left unterminated. -/
theorem sanitize_emitted_marks_balanced (f : List Char) :
    balancedMarks (markersOf (sanMarked f)) = true
    ∧ sanitizeRtfFragment f =
        trimBoth (punctPass (collapseSpaces (keepPrintable (stripCtlChars
          (renderToks (sanMarked f)))))) := by
  constructor
  · obtain ⟨h1, h2⟩ := sanScan_marks f false []
    have hm : markersOf (sanMarked f)
        = markersOf (sanScan f false []).1
          ++ (if (sanScan f false []).2 then [false] else []) := by
      simp only [sanMarked]
      cases (sanScan f false []).2 <;> simp [markersOf, List.filterMap_append]
    simp only [balancedMarks, hm]
    cases hb : (sanScan f false []).2 with
    | false =>
      rw [hb] at h2
      rw [List.getLastD_eq_getLast?] at h2
      simp [h1, h2]
    | true =>
      rw [hb] at h2
      simp only [reduceIte]
      rw [altAfter_append, h1, h2, List.getLastD_concat]
      decide
  · rfl

/-- Witness for `convert_output_shape` at a concrete styles table and
document. -/
theorem convert_output_shape_witness :
    readStyles "styles.tsv" demoStylesText = Except.ok demoStyles
    ∧ convert "styles.tsv" demoStylesText false ("hi\\par".toList) =
        Except.ok (joinLines (demoStyles.headerLines
          ++ (extractEntriesFromRtf ("hi\\par".toList)).filterMap (emitLine demoStyles false)
          ++ [['}']])) :=
  ⟨rfl, (convert_output_shape "styles.tsv" demoStylesText demoStyles false
    ("hi\\par".toList) rfl).1⟩

/-! ### C9: idempotence of whitespace normalization -/

theorem noPair_cons (p : Char → Char → Bool) (c : Char) (l : List Char) :
    noPair p (c :: l) = (okHead p c l && noPair p l) := by
  cases l <;> simp [noPair, okHead]

theorem noPair_tail (p : Char → Char → Bool) (c : Char) (l : List Char)
    (h : noPair p (c :: l) = true) : noPair p l = true := by
  rw [noPair_cons] at h
  exact (Bool.and_eq_true_iff.mp h).2

theorem noPair_append_left (p : Char → Char → Bool) (xs ys : List Char)
    (h : noPair p (xs ++ ys) = true) : noPair p xs = true := by
  induction xs with
  | nil => rfl
  | cons a xs ih =>
    rw [List.cons_append, noPair_cons] at h
    obtain ⟨h1, h2⟩ := Bool.and_eq_true_iff.mp h
    rw [noPair_cons, Bool.and_eq_true_iff]
    refine ⟨?_, ih h2⟩
    cases xs with
    | nil => rfl
    | cons b xs2 => simpa [okHead] using h1

theorem noPair_append_right (p : Char → Char → Bool) (xs ys : List Char)
    (h : noPair p (xs ++ ys) = true) : noPair p ys = true := by
  induction xs with
  | nil => simpa using h
  | cons a xs ih =>
    rw [List.cons_append] at h
    exact ih (noPair_tail p a _ h)

theorem okHead_of_not_fst (p : Char → Char → Bool) (c : Char)
    (h : ∀ b, p c b = false) (l : List Char) : okHead p c l = true := by
  cases l <;> simp [okHead, h]

theorem dblSp_fst_false (c : Char) (h : ¬c = ' ') (b : Char) : dblSp c b = false := by
  simp [dblSp, h]

theorem wsPunct_fst_false (c : Char) (h : jsWs c = false) (b : Char) :
    wsPunct c b = false := by
  simp [wsPunct, h]

theorem ws_not_punct (x : Char) (h : jsWs x = true) :
    punctChars.contains x = false := by
  by_contra hc
  have hx : x ∈ punctChars := by
    simpa using Bool.of_not_eq_false hc
  have : x = ',' ∨ x = '.' ∨ x = ';' ∨ x = ':' := by
    simpa [punctChars] using hx
  rcases this with rfl | rfl | rfl | rfl <;> exact absurd h (by decide)

theorem punct_not_ws (c : Char) (h : punctChars.contains c = true) :
    jsWs c = false := by
  have hc : c = ',' ∨ c = '.' ∨ c = ';' ∨ c = ':' := by
    simpa [punctChars] using h
  rcases hc with rfl | rfl | rfl | rfl <;> decide

theorem punct_ne_space (c : Char) (h : punctChars.contains c = true) : ¬c = ' ' := by
  have hc : c = ',' ∨ c = '.' ∨ c = ';' ∨ c = ':' := by
    simpa [punctChars] using h
  rcases hc with rfl | rfl | rfl | rfl <;> decide

/-! collapse -/

theorem collapse_nd (s : List Char) :
    noPair dblSp (collapseAux s true) = true
    ∧ (collapseAux s true).head? ≠ some ' '
    ∧ noPair dblSp (collapseAux s false) = true := by
  induction s with
  | nil => exact ⟨rfl, by simp [collapseAux], rfl⟩
  | cons c cs ih =>
    obtain ⟨ih1, ih2, ih3⟩ := ih
    by_cases hc : c = ' '
    · subst hc
      have e1 : collapseAux (' ' :: cs) true = collapseAux cs true := rfl
      have e2 : collapseAux (' ' :: cs) false = ' ' :: collapseAux cs true := rfl
      refine ⟨by rw [e1]; exact ih1, by rw [e1]; exact ih2, ?_⟩
      rw [e2, noPair_cons, Bool.and_eq_true_iff]
      refine ⟨?_, ih1⟩
      cases hh : collapseAux cs true with
      | nil => rfl
      | cons b l =>
        rw [hh] at ih2
        simp only [List.head?] at ih2
        rw [show okHead dblSp ' ' (b :: l) = !(' ' == ' ' && b == ' ') from rfl]
        simp [show ¬b = ' ' from fun hb => ih2 (by rw [hb])]
    · have hout : collapseAux (c :: cs) true = c :: collapseAux cs false := by
        simp [collapseAux, hc]
      have hout2 : collapseAux (c :: cs) false = c :: collapseAux cs false := by
        simp [collapseAux, hc]
      refine ⟨?_, ?_, ?_⟩
      · rw [hout, noPair_cons, Bool.and_eq_true_iff]
        exact ⟨okHead_of_not_fst _ _ (dblSp_fst_false c hc) _, ih3⟩
      · rw [hout]
        simp [hc]
      · rw [hout2, noPair_cons, Bool.and_eq_true_iff]
        exact ⟨okHead_of_not_fst _ _ (dblSp_fst_false c hc) _, ih3⟩

theorem collapse_id (s : List Char) (h : noPair dblSp s = true) :
    collapseAux s false = s
    ∧ (s.head? ≠ some ' ' → collapseAux s true = s) := by
  induction s with
  | nil => exact ⟨rfl, fun _ => rfl⟩
  | cons c cs ih =>
    obtain ⟨ih1, ih2⟩ := ih (noPair_tail _ _ _ h)
    by_cases hc : c = ' '
    · subst hc
      have hhd : cs.head? ≠ some ' ' := by
        intro hh
        cases cs with
        | nil => simp at hh
        | cons b l =>
          simp only [List.head?, Option.some.injEq] at hh
          subst hh
          rw [noPair_cons] at h
          simp [okHead, dblSp] at h
      constructor
      · rw [show collapseAux (' ' :: cs) false = ' ' :: collapseAux cs true from rfl,
          ih2 hhd]
      · intro hne
        simp at hne
    · constructor
      · simp only [collapseAux, if_neg hc]
        rw [ih1]
      · intro _
        simp only [collapseAux, if_neg hc]
        rw [ih1]

/-! punct -/

theorem noPair_wsPunct_of_ws (l : List Char) (h : ∀ x ∈ l, jsWs x = true) :
    noPair wsPunct l = true := by
  induction l with
  | nil => rfl
  | cons a l ih =>
    rw [noPair_cons, Bool.and_eq_true_iff]
    refine ⟨?_, ih (fun x hx => h x (by simp [hx]))⟩
    cases l with
    | nil => rfl
    | cons b l2 =>
      rw [show okHead wsPunct a (b :: l2) = !(jsWs a && punctChars.contains b) from rfl,
        ws_not_punct b (h b (by simp))]
      simp

theorem nwp_ws_append (w l : List Char) (hw : ∀ x ∈ w, jsWs x = true)
    (hl : noPair wsPunct l = true) (hh : headNotPunct l = true) :
    noPair wsPunct (w ++ l) = true := by
  induction w with
  | nil => simpa using hl
  | cons a w ih =>
    rw [List.cons_append, noPair_cons, Bool.and_eq_true_iff]
    refine ⟨?_, ih (fun x hx => hw x (by simp [hx]))⟩
    cases hw2 : w ++ l with
    | nil => rfl
    | cons b l2 =>
      have hb : punctChars.contains b = false := by
        cases w with
        | nil =>
          simp only [List.nil_append] at hw2
          rw [hw2] at hh
          simpa [headNotPunct] using hh
        | cons x w2 =>
          simp only [List.cons_append, List.cons.injEq] at hw2
          refine ws_not_punct b ?_
          rw [← hw2.1]
          exact hw x (by simp)
      rw [show okHead wsPunct a (b :: l2) = !(jsWs a && punctChars.contains b) from rfl,
        hb]
      simp

theorem punct_nwp (s : List Char) : ∀ pend : List Char,
    (∀ x ∈ pend, jsWs x = true) → noPair wsPunct (punctAux s pend) = true := by
  induction s with
  | nil =>
    intro pend hp
    simp only [punctAux]
    exact noPair_wsPunct_of_ws _ (fun x hx => hp x (by simpa using hx))
  | cons c cs ih =>
    intro pend hp
    by_cases hws : jsWs c = true
    · simp only [punctAux, if_pos hws]
      exact ih (c :: pend) (by
        intro x hx
        rcases List.mem_cons.mp hx with rfl | hx2
        · exact hws
        · exact hp x hx2)
    · by_cases hpc : (punctChars.contains c && !pend.isEmpty) = true
      · simp only [punctAux, if_neg hws, if_pos hpc]
        rw [noPair_cons, Bool.and_eq_true_iff]
        have hws' : jsWs c = false := by simpa using hws
        exact ⟨okHead_of_not_fst _ _ (wsPunct_fst_false c hws') _, ih [] (by simp)⟩
      · have hws' : jsWs c = false := by simpa using hws
        cases pend with
        | nil =>
          simp only [punctAux, if_neg hws, if_neg hpc, List.reverse_nil,
            List.nil_append]
          rw [noPair_cons, Bool.and_eq_true_iff]
          exact ⟨okHead_of_not_fst _ _ (wsPunct_fst_false c hws') _, ih [] (by simp)⟩
        | cons y p2 =>
          have hcontains : punctChars.contains c = false := by
            simp only [List.isEmpty_cons, Bool.not_false, Bool.and_true] at hpc
            simpa using hpc
          simp only [punctAux, if_neg hws, if_neg hpc]
          apply nwp_ws_append
          · intro x hx
            refine hp x ?_
            have := List.mem_reverse.mp hx
            exact this
          · rw [noPair_cons, Bool.and_eq_true_iff]
            exact ⟨okHead_of_not_fst _ _ (wsPunct_fst_false c hws') _, ih [] (by simp)⟩
          · simpa [headNotPunct] using hcontains

theorem noPair_append_mid (X Z : List Char) (c : Char) (hc : ¬c = ' ')
    (hX : noPair dblSp X = true) (hZ : noPair dblSp Z = true) :
    noPair dblSp (X ++ c :: Z) = true := by
  induction X with
  | nil =>
    rw [List.nil_append, noPair_cons, Bool.and_eq_true_iff]
    exact ⟨okHead_of_not_fst _ _ (dblSp_fst_false c hc) _, hZ⟩
  | cons a X ih =>
    rw [List.cons_append, noPair_cons, Bool.and_eq_true_iff]
    refine ⟨?_, ih (noPair_tail _ _ _ hX)⟩
    cases X with
    | nil =>
      simp only [List.nil_append]
      rw [show okHead dblSp a (c :: Z) = !(a == ' ' && c == ' ') from rfl]
      simp [hc]
    | cons b X2 =>
      simp only [List.cons_append]
      rw [show okHead dblSp a (b :: (X2 ++ c :: Z)) = !(a == ' ' && b == ' ') from rfl]
      rw [noPair_cons] at hX
      have h1 := (Bool.and_eq_true_iff.mp hX).1
      rw [show okHead dblSp a (b :: X2) = !(a == ' ' && b == ' ') from rfl] at h1
      exact h1

theorem punct_nd (s : List Char) : ∀ pend : List Char,
    (∀ x ∈ pend, jsWs x = true) →
    noPair dblSp (pend.reverse ++ s) = true →
    noPair dblSp (punctAux s pend) = true := by
  induction s with
  | nil =>
    intro pend _ h
    simp only [punctAux]
    exact noPair_append_left _ _ _ h
  | cons c cs ih =>
    intro pend hp h
    by_cases hws : jsWs c = true
    · simp only [punctAux, if_pos hws]
      refine ih (c :: pend) (fun x hx => ?_) ?_
      · rcases List.mem_cons.mp hx with rfl | hx2
        · exact hws
        · exact hp x hx2
      · rw [List.reverse_cons, List.append_assoc, List.singleton_append]
        exact h
    · have hcs : noPair dblSp cs = true :=
        noPair_tail _ _ _ (noPair_append_right _ _ _ h)
      have hcne : ¬c = ' ' := fun he => by
        rw [he] at hws
        exact hws (by decide)
      by_cases hpc : (punctChars.contains c && !pend.isEmpty) = true
      · simp only [punctAux, if_neg hws, if_pos hpc]
        rw [noPair_cons, Bool.and_eq_true_iff]
        refine ⟨okHead_of_not_fst _ _ (dblSp_fst_false c hcne) _, ?_⟩
        exact ih [] (by simp) (by simpa using hcs)
      · simp only [punctAux, if_neg hws, if_neg hpc]
        refine noPair_append_mid _ _ _ hcne ?_ ?_
        · exact noPair_append_left _ _ _ h
        · exact ih [] (by simp) (by simpa using hcs)

theorem punct_id (s : List Char) : ∀ pend : List Char,
    noPair wsPunct s = true →
    (pend.isEmpty || headNotPunct s) = true →
    punctAux s pend = pend.reverse ++ s := by
  induction s with
  | nil =>
    intro pend _ _
    simp [punctAux]
  | cons c cs ih =>
    intro pend hs hj
    by_cases hws : jsWs c = true
    · simp only [punctAux, if_pos hws]
      have hj2 : ((c :: pend).isEmpty || headNotPunct cs) = true := by
        cases cs with
        | nil => simp [headNotPunct]
        | cons b l =>
          rw [noPair_cons] at hs
          have h1 := (Bool.and_eq_true_iff.mp hs).1
          rw [show okHead wsPunct c (b :: l)
              = !(jsWs c && punctChars.contains b) from rfl, hws] at h1
          simp only [Bool.true_and, Bool.not_eq_true'] at h1
          rw [show headNotPunct (b :: l) = !punctChars.contains b from rfl, h1]
          simp
      rw [ih (c :: pend) (noPair_tail _ _ _ hs) hj2, List.reverse_cons,
        List.append_assoc, List.singleton_append]
    · by_cases hpc : (punctChars.contains c && !pend.isEmpty) = true
      · exfalso
        obtain ⟨h1, h2⟩ := Bool.and_eq_true_iff.mp hpc
        cases pend with
        | nil => simp at h2
        | cons y p =>
          simp only [List.isEmpty_cons, Bool.false_or] at hj
          rw [show headNotPunct (c :: cs) = !punctChars.contains c from rfl, h1] at hj
          simp at hj
      · simp only [punctAux, if_neg hws, if_neg hpc]
        rw [ih [] (noPair_tail _ _ _ hs) (by simp)]
        simp

theorem noPair_dropWhile (p : Char → Char → Bool) (q : Char → Bool) (l : List Char)
    (h : noPair p l = true) : noPair p (l.dropWhile q) = true := by
  induction l with
  | nil => rfl
  | cons c cs ih =>
    rw [List.dropWhile_cons]
    split
    · exact ih (noPair_tail _ _ _ h)
    · exact h

theorem trimR_prefix (s : List Char) : trimR s <+: s := by
  induction s with
  | nil => exact List.prefix_refl _
  | cons c cs ih =>
    simp only [trimR]
    cases h : trimR cs with
    | nil =>
      show (if jsWs c then [] else [c]) <+: c :: cs
      by_cases hc : jsWs c
      · simp [hc]
      · simp [hc]
    | cons r0 rs =>
      show c :: r0 :: rs <+: c :: cs
      rw [h] at ih
      exact List.cons_prefix_cons.mpr ⟨rfl, ih⟩

theorem noPair_trimR (p : Char → Char → Bool) (s : List Char)
    (h : noPair p s = true) : noPair p (trimR s) = true := by
  obtain ⟨t, ht⟩ := trimR_prefix s
  rw [← ht] at h
  exact noPair_append_left _ _ _ h

theorem trimR_idem (s : List Char) : trimR (trimR s) = trimR s := by
  induction s with
  | nil => rfl
  | cons c cs ih =>
    simp only [trimR]
    cases h : trimR cs with
    | nil =>
      show trimR (if jsWs c then [] else [c]) = if jsWs c then [] else [c]
      by_cases hc : jsWs c
      · simp [hc, trimR]
      · simp [hc, trimR]
    | cons r0 rs =>
      show trimR (c :: r0 :: rs) = c :: r0 :: rs
      have h2 : trimR (r0 :: rs) = r0 :: rs := by
        rw [← h]
        exact ih
      rw [trimR.eq_2, h2]

theorem trimR_head (s : List Char) (a : Char) (h : (trimR s).head? = some a) :
    s.head? = some a := by
  cases s with
  | nil => simp [trimR] at h
  | cons c cs =>
    simp only [trimR] at h
    cases h2 : trimR cs with
    | nil =>
      rw [h2] at h
      by_cases hc : jsWs c
      · simp [hc] at h
      · simp only [if_neg hc, List.head?, Option.some.injEq] at h
        simp [h]
    | cons r0 rs =>
      rw [h2] at h
      simp only [List.head?, Option.some.injEq] at h ⊢
      exact h

theorem dropWhile_head (q : Char → Bool) (l : List Char) (a : Char)
    (h : (l.dropWhile q).head? = some a) : q a = false := by
  induction l with
  | nil => simp at h
  | cons c cs ih =>
    rw [List.dropWhile_cons] at h
    split at h
    · exact ih h
    · rename_i hq
      simp only [List.head?, Option.some.injEq] at h
      rw [← h]
      simpa using hq

theorem trimL_trimBoth (s : List Char) : trimL (trimBoth s) = trimBoth s := by
  show List.dropWhile jsWs (trimR (List.dropWhile jsWs s))
      = trimR (List.dropWhile jsWs s)
  cases h : trimR (List.dropWhile jsWs s) with
  | nil => rfl
  | cons a t =>
    have ha : jsWs a = false := by
      have h1 : (trimR (List.dropWhile jsWs s)).head? = some a := by
        rw [h]
        rfl
      exact dropWhile_head _ _ _ (trimR_head _ _ h1)
    rw [List.dropWhile_cons, if_neg (by simp [ha])]

theorem trimBoth_idem (s : List Char) : trimBoth (trimBoth s) = trimBoth s := by
  show trimR (trimL (trimBoth s)) = trimBoth s
  rw [trimL_trimBoth]
  show trimR (trimR (trimL s)) = trimBoth s
  rw [trimR_idem]
  rfl

/-- C9: the whitespace-normalization step of lines 162-164 — collapse every
run of two or more spaces to a single space, remove whitespace immediately
before `,`, `.`, `;`, `:`, and trim leading and trailing whitespace — is
idempotent: for every string, applying it twice yields the same result as
applying it once. -/
theorem wsNormalize_idem (s : List Char) :
    wsNormalize (wsNormalize s) = wsNormalize s := by
  have hnd1 : noPair dblSp (collapseSpaces s) = true := (collapse_nd s).2.2
  have hnd2 : noPair dblSp (punctPass (collapseSpaces s)) = true := by
    refine punct_nd _ [] (by simp) ?_
    simpa using hnd1
  have hnwp2 : noPair wsPunct (punctPass (collapseSpaces s)) = true :=
    punct_nwp _ [] (by simp)
  have hndt : noPair dblSp (wsNormalize s) = true :=
    noPair_trimR _ _ (noPair_dropWhile _ _ _ hnd2)
  have hnwpt : noPair wsPunct (wsNormalize s) = true :=
    noPair_trimR _ _ (noPair_dropWhile _ _ _ hnwp2)
  have e1 : collapseSpaces (wsNormalize s) = wsNormalize s :=
    (collapse_id _ hndt).1
  have e2 : punctPass (wsNormalize s) = wsNormalize s := by
    show punctAux (wsNormalize s) [] = wsNormalize s
    rw [punct_id _ [] hnwpt (by simp)]
    simp
  have e3 : trimBoth (wsNormalize s) = wsNormalize s :=
    trimBoth_idem (punctPass (collapseSpaces s))
  show trimBoth (punctPass (collapseSpaces (wsNormalize s))) = wsNormalize s
  rw [e1, e2, e3]

/-! ### C10: forced bold-off sentinel for list entries left bold-on -/

theorem sanScan_plain_append (m : List Char) : ∀ (X : List Char) (b : Bool) (st : List Bool),
    (∀ c ∈ m, ¬c = '{' ∧ ¬c = '}' ∧ ¬c = '\\') →
    sanScan (m ++ X) b st = (m.map Tok.ch ++ (sanScan X b st).1, (sanScan X b st).2) := by
  induction m with
  | nil =>
    intro X b st _
    simp
  | cons c cs ih =>
    intro X b st h
    obtain ⟨h1, h2, h3⟩ := h c (by simp)
    rw [List.cons_append, sanScan_plainc (cs ++ X) b st c h1 h2 h3,
      ih X b st (fun x hx => h x (by simp [hx]))]
    rfl

theorem sanMarked_plain_append (m X : List Char)
    (h : ∀ c ∈ m, ¬c = '{' ∧ ¬c = '}' ∧ ¬c = '\\') :
    sanMarked (m ++ X) = m.map Tok.ch ++ sanMarked X := by
  simp only [sanMarked, sanScan_plain_append m X false [] h, List.append_assoc]

theorem renderToks_append (a b : List Tok) :
    renderToks (a ++ b) = renderToks a ++ renderToks b := by
  induction a with
  | nil => rfl
  | cons t ts ih => simp [renderToks, ih]

theorem collapse_nonsp_append (m : List Char) (hm : ∀ c ∈ m, ¬c = ' ') (s : List Char) :
    collapseAux (m ++ s) false = m ++ collapseAux s false := by
  induction m with
  | nil => rfl
  | cons c cs ih =>
    rw [List.cons_append,
      show collapseAux (c :: (cs ++ s)) false
        = if c = ' ' then ' ' :: collapseAux (cs ++ s) true
          else c :: collapseAux (cs ++ s) false from by
        simp [collapseAux],
      if_neg (hm c (by simp)), ih (fun x hx => hm x (by simp [hx]))]
    rfl

theorem punct_nonws_append (m : List Char) (hm : ∀ c ∈ m, jsWs c = false) (s : List Char) :
    punctAux (m ++ s) [] = m ++ punctAux s [] := by
  induction m with
  | nil => rfl
  | cons c cs ih =>
    rw [List.cons_append]
    have hws : ¬jsWs c = true := by simp [hm c (by simp)]
    simp only [punctAux, if_neg hws, List.isEmpty_nil, Bool.not_true, Bool.and_false,
      Bool.false_eq_true, if_false, List.reverse_nil, List.nil_append]
    rw [ih (fun x hx => hm x (by simp [hx]))]
    rfl

theorem trimR_append_nonws (m : List Char) (hm : ∀ c ∈ m, jsWs c = false) (z : List Char) :
    trimR (m ++ z) = m ++ trimR z := by
  induction m with
  | nil => rfl
  | cons c cs ih =>
    rw [List.cons_append, trimR.eq_2, ih (fun x hx => hm x (by simp [hx]))]
    cases hmz : cs ++ trimR z with
    | nil =>
      obtain ⟨hc1, hc2⟩ := List.append_eq_nil.mp hmz
      rw [if_neg (by simp [hm c (by simp)])]
      rw [hc1, hc2]
      rfl
    | cons r0 rs =>
      show c :: (r0 :: rs) = c :: cs ++ trimR z
      rw [← hmz]
      rfl

theorem isPrefixOf_append_self (m t : List Char) : m.isPrefixOf (m ++ t) = true := by
  induction m with
  | nil => simp [List.isPrefixOf]
  | cons c cs ih => simp [List.isPrefixOf, ih]

theorem boldoff_prefix (X : List Char) :
    offMark.isPrefixOf (sanitizeRtfFragment ("[[B_OFF]] ".toList ++ X)) = true := by
  have hplain : ∀ c ∈ ("[[B_OFF]] ".toList), ¬c = '{' ∧ ¬c = '}' ∧ ¬c = '\\' := by decide
  have h2 : renderToks (sanMarked ("[[B_OFF]] ".toList ++ X))
      = "[[B_OFF]] ".toList ++ renderToks (sanMarked X) := by
    rw [sanMarked_plain_append _ _ hplain, renderToks_append, renderToks_map_ch]
  show offMark.isPrefixOf (trimBoth (punctPass (collapseSpaces (keepPrintable
    (stripCtlChars (renderToks (sanMarked ("[[B_OFF]] ".toList ++ X)))))))) = true
  rw [h2]
  have e1 : stripCtlChars ("[[B_OFF]] ".toList ++ renderToks (sanMarked X))
      = "[[B_OFF]] ".toList ++ stripCtlChars (renderToks (sanMarked X)) := rfl
  rw [e1]
  have e2 : keepPrintable ("[[B_OFF]] ".toList ++ stripCtlChars (renderToks (sanMarked X)))
      = "[[B_OFF]] ".toList ++ keepPrintable (stripCtlChars (renderToks (sanMarked X))) := rfl
  rw [e2]
  have e3 : collapseSpaces ("[[B_OFF]] ".toList
        ++ keepPrintable (stripCtlChars (renderToks (sanMarked X))))
      = offMark ++ (' ' :: collapseAux (keepPrintable (stripCtlChars
          (renderToks (sanMarked X)))) true) := by
    show collapseAux (offMark ++ (' ' :: keepPrintable (stripCtlChars
        (renderToks (sanMarked X))))) false = _
    rw [collapse_nonsp_append offMark (by decide)]
    rfl
  rw [e3]
  simp only [punctPass]
  rw [punct_nonws_append offMark (by decide)]
  rw [show trimBoth (offMark ++ punctAux (' ' :: collapseAux (keepPrintable (stripCtlChars
        (renderToks (sanMarked X)))) true) [])
      = offMark ++ trimR (punctAux (' ' :: collapseAux (keepPrintable (stripCtlChars
        (renderToks (sanMarked X)))) true) []) from by
    show trimR (trimL _) = _
    rw [show trimL (offMark ++ punctAux (' ' :: collapseAux (keepPrintable (stripCtlChars
        (renderToks (sanMarked X)))) true) [])
        = offMark ++ punctAux (' ' :: collapseAux (keepPrintable (stripCtlChars
        (renderToks (sanMarked X)))) true) [] from by
      show List.dropWhile jsWs ('[' :: _) = _
      rw [List.dropWhile_cons, if_neg (by decide)]
      rfl]
    exact trimR_append_nonws offMark (by decide) _]
  exact isPrefixOf_append_self _ _

/-- C10: for a paragraph classified as a list entry whose extracted
marker-holder group leaves bold on (its last bold control word is a plain
`\b`), the extractor prepends the literal sentinel `[[B_OFF]] ` to the body
before sanitization, and the sanitized body of the resulting entry begins
with the bold-OFF marker `[[B_OFF]]` (so that marker has no preceding ON
marker). -/
theorem processPara_boldoff (p : List Char) (lab : List Char) (lt : LType)
    (h1 : getListLabel (extractListtextGroup (contentParaOf p)) = some (lab, lt))
    (h2 : boldScan (extractListtextGroup (contentParaOf p)) false = true)
    (h3 : ¬trimBoth p = []) :
    processPara p = some (Entry.list lab
      (sanitizeRtfFragment ("[[B_OFF]] ".toList ++ removeListtextGroups (contentParaOf p)))
      lt)
    ∧ offMark.isPrefixOf
        (sanitizeRtfFragment ("[[B_OFF]] ".toList
          ++ removeListtextGroups (contentParaOf p))) = true := by
  have hpre := boldoff_prefix (removeListtextGroups (contentParaOf p))
  refine ⟨?_, hpre⟩
  have hne : ¬(sanitizeRtfFragment ("[[B_OFF]] ".toList
      ++ removeListtextGroups (contentParaOf p)) = []) := by
    intro he
    rw [he] at hpre
    exact absurd hpre (by decide)
  simp only [processPara, if_neg h3, h1, h2, ite_true, if_neg hne]

/-- Witness for `processPara_boldoff` at the paragraph
`\x7b\listtext\b 1.\tab\x7dstuff`. -/
theorem processPara_boldoff_witness :
    getListLabel (extractListtextGroup (contentParaOf
        ("\x7b\\listtext\\b 1.\\tab\x7dstuff".toList)))
      = some ("1.".toList, LType.ordered)
    ∧ boldScan (extractListtextGroup (contentParaOf
        ("\x7b\\listtext\\b 1.\\tab\x7dstuff".toList))) false = true
    ∧ processPara ("\x7b\\listtext\\b 1.\\tab\x7dstuff".toList) = some (Entry.list ("1.".toList)
        (sanitizeRtfFragment ("[[B_OFF]] ".toList ++ removeListtextGroups (contentParaOf
          ("\x7b\\listtext\\b 1.\\tab\x7dstuff".toList))))
        LType.ordered) := by
  refine ⟨by decide, by decide, ?_⟩
  exact (processPara_boldoff ("\x7b\\listtext\\b 1.\\tab\x7dstuff".toList) ("1.".toList)
    LType.ordered (by decide) (by decide) (by decide)).1

/-! ### C8: escaping round trip -/

/-- Counterexample to C8: the body `\bX` (a literal backslash, the letter
`b`, an opening brace) contains a literal backslash and a literal brace, yet
escaping inserts a space after what the bold-control cleanup passes take for
a `\b` control word, so reversing the three literal-escape rules yields
a different body. -/
theorem escape_roundtrip_cex :
    ('\\' ∈ ("\\b\x7b".toList) ∧ '{' ∈ ("\\b\x7b".toList))
    ∧ escapeRtfText ("\\b\x7b".toList) false = "\\\\b \\\x7b".toList
    ∧ unescapeRtf (escapeRtfText ("\\b\x7b".toList) false) = "\\b \x7b".toList
    ∧ ¬unescapeRtf (escapeRtfText ("\\b\x7b".toList) false) = "\\b\x7b".toList := by
  refine ⟨by decide, by decide, by decide, by decide⟩

theorem unescape_cons (c : Char) (R : List Char) (hc : ¬c = '\\') :
    unescapeRtf (c :: R) = c :: unescapeRtf R := by
  rw [unescapeRtf.eq_def]
  split
  · rename_i heq
    injection heq with h1 _
    exact absurd h1 hc
  · rename_i heq
    injection heq with h1 _
    exact absurd h1 hc
  · rename_i heq
    injection heq with h1 _
    exact absurd h1 hc
  · rename_i heq
    injection heq with h1 h2
    subst h1
    subst h2
    rfl
  · rename_i heq
    exact absurd heq (by simp)

theorem isSpecial_cases (c : Char) (hc : isSpecial c = true) :
    c = '\\' ∨ c = '{' ∨ c = '}' := by
  simpa [isSpecial, or_assoc] using hc

theorem unescape_escapeCtrl (s : List Char) : unescapeRtf (escapeCtrl s) = s := by
  induction s with
  | nil => rfl
  | cons c cs ih =>
    by_cases hc : isSpecial c = true
    · rw [show escapeCtrl (c :: cs) = '\\' :: c :: escapeCtrl cs from by
        simp [escapeCtrl, hc]]
      rcases isSpecial_cases c hc with rfl | rfl | rfl
      · rw [show unescapeRtf ('\\' :: '\\' :: escapeCtrl cs)
            = '\\' :: unescapeRtf (escapeCtrl cs) from rfl, ih]
      · rw [show unescapeRtf ('\\' :: '{' :: escapeCtrl cs)
            = '{' :: unescapeRtf (escapeCtrl cs) from rfl, ih]
      · rw [show unescapeRtf ('\\' :: '}' :: escapeCtrl cs)
            = '}' :: unescapeRtf (escapeCtrl cs) from rfl, ih]
    · rw [show escapeCtrl (c :: cs) = c :: escapeCtrl cs from by simp [escapeCtrl, hc]]
      have hc2 : ¬c = '\\' := fun he => hc (by rw [he]; decide)
      rw [unescape_cons c _ hc2, ih]

theorem escapeCtrl_head (cs : List Char) (x : Char)
    (h : (escapeCtrl cs).head? = some x) : x = '\\' ∨ cs.head? = some x := by
  cases cs with
  | nil => simp [escapeCtrl] at h
  | cons d t =>
    by_cases hd : isSpecial d = true
    · left
      rw [show escapeCtrl (d :: t) = '\\' :: d :: escapeCtrl t from by
        simp [escapeCtrl, hd]] at h
      simpa using h.symm
    · right
      rw [show escapeCtrl (d :: t) = d :: escapeCtrl t from by
        simp [escapeCtrl, hd]] at h
      simpa using h

theorem noPair_escapeCtrl (p : Char → Char → Bool)
    (ca : ∀ a, p a '\\' = false)
    (cb : ∀ a c, isSpecial c = true → p a c = false)
    (s : List Char) (h : noPair p s = true) : noPair p (escapeCtrl s) = true := by
  induction s with
  | nil => rfl
  | cons c cs ih =>
    rw [noPair_cons, Bool.and_eq_true_iff] at h
    obtain ⟨hok, htl⟩ := h
    have hE := ih htl
    have hokE : okHead p c (escapeCtrl cs) = true := by
      cases he : escapeCtrl cs with
      | nil => rfl
      | cons y ys =>
        have hh : (escapeCtrl cs).head? = some y := by
          rw [he]
          rfl
        rcases escapeCtrl_head cs y hh with rfl | hcs
        · rw [show okHead p c ('\\' :: ys) = !p c '\\' from rfl, ca]
          rfl
        · cases cs with
          | nil => simp at hcs
          | cons d t =>
            simp only [List.head?, Option.some.injEq] at hcs
            rw [show okHead p c (y :: ys) = !p c y from rfl, ← hcs]
            rw [show okHead p c (d :: t) = !p c d from rfl] at hok
            exact hok
    by_cases hc : isSpecial c = true
    · rw [show escapeCtrl (c :: cs) = '\\' :: c :: escapeCtrl cs from by
        simp [escapeCtrl, hc]]
      rw [noPair_cons, Bool.and_eq_true_iff]
      constructor
      · rw [show okHead p '\\' (c :: escapeCtrl cs) = !p '\\' c from rfl, cb '\\' c hc]
        rfl
      · rw [noPair_cons, Bool.and_eq_true_iff]
        exact ⟨hokE, hE⟩
    · rw [show escapeCtrl (c :: cs) = c :: escapeCtrl cs from by simp [escapeCtrl, hc]]
      rw [noPair_cons, Bool.and_eq_true_iff]
      exact ⟨hokE, hE⟩

theorem special_not_ws (c : Char) (hc : isSpecial c = true) : jsWs c = false := by
  rcases isSpecial_cases c hc with rfl | rfl | rfl <;> decide

theorem headNotWs_escapeCtrl (s : List Char) (h : headNotWs s = true) :
    headNotWs (escapeCtrl s) = true := by
  cases s with
  | nil => rfl
  | cons d t =>
    by_cases hd : isSpecial d = true
    · rw [show escapeCtrl (d :: t) = '\\' :: d :: escapeCtrl t from by
        simp [escapeCtrl, hd]]
      rfl
    · rw [show escapeCtrl (d :: t) = d :: escapeCtrl t from by simp [escapeCtrl, hd]]
      simpa [headNotWs] using h

theorem lastNotWs_cons (c : Char) (d : Char) (t : List Char) :
    lastNotWs (c :: d :: t) = lastNotWs (d :: t) := by
  simp [lastNotWs, List.getLast?_cons_cons]

theorem escapeCtrl_ne_nil (d : Char) (t : List Char) : escapeCtrl (d :: t) ≠ [] := by
  by_cases hd : isSpecial d = true
  · rw [show escapeCtrl (d :: t) = '\\' :: d :: escapeCtrl t from by simp [escapeCtrl, hd]]
    simp
  · rw [show escapeCtrl (d :: t) = d :: escapeCtrl t from by simp [escapeCtrl, hd]]
    simp

theorem lastNotWs_escapeCtrl (s : List Char) (h : lastNotWs s = true) :
    lastNotWs (escapeCtrl s) = true := by
  induction s with
  | nil => rfl
  | cons c cs ih =>
    cases cs with
    | nil =>
      by_cases hc : isSpecial c = true
      · rw [show escapeCtrl [c] = ['\\', c] from by simp [escapeCtrl, hc]]
        rw [show lastNotWs ['\\', c] = !jsWs c from by simp [lastNotWs],
          special_not_ws c hc]
        rfl
      · rw [show escapeCtrl [c] = [c] from by simp [escapeCtrl, hc]]
        exact h
    | cons d t =>
      rw [lastNotWs_cons] at h
      have hE := ih h
      have hne := escapeCtrl_ne_nil d t
      obtain ⟨y, ys, hys⟩ : ∃ y ys, escapeCtrl (d :: t) = y :: ys := by
        cases he : escapeCtrl (d :: t) with
        | nil => exact absurd he hne
        | cons y ys => exact ⟨y, ys, rfl⟩
      by_cases hc : isSpecial c = true
      · rw [show escapeCtrl (c :: d :: t) = '\\' :: c :: escapeCtrl (d :: t) from by
          simp [escapeCtrl, hc], hys, lastNotWs_cons, lastNotWs_cons, ← hys]
        exact hE
      · rw [show escapeCtrl (c :: d :: t) = c :: escapeCtrl (d :: t) from by
          simp [escapeCtrl, hc], hys, lastNotWs_cons, ← hys]
        exact hE

theorem keepAscii_escapeCtrl (s : List Char) (h : ∀ c ∈ s, c.toNat ≤ 127) :
    keepAscii (escapeCtrl s) = escapeCtrl s := by
  induction s with
  | nil => rfl
  | cons c cs ih =>
    have hih := ih (fun x hx => h x (by simp [hx]))
    have hca : (c.toNat ≤ 127) := h c (by simp)
    by_cases hc : isSpecial c = true
    · rw [show escapeCtrl (c :: cs) = '\\' :: c :: escapeCtrl cs from by
        simp [escapeCtrl, hc]]
      show List.filter _ _ = _
      rw [List.filter_cons, List.filter_cons]
      rw [if_pos (by decide), if_pos (by simpa using hca)]
      rw [show List.filter (fun c => decide (c.toNat ≤ 127)) (escapeCtrl cs)
          = keepAscii (escapeCtrl cs) from rfl, hih]
    · rw [show escapeCtrl (c :: cs) = c :: escapeCtrl cs from by simp [escapeCtrl, hc]]
      show List.filter _ _ = _
      rw [List.filter_cons, if_pos (by simpa using hca)]
      rw [show List.filter (fun c => decide (c.toNat ≤ 127)) (escapeCtrl cs)
          = keepAscii (escapeCtrl cs) from rfl, hih]

theorem trimL_of_headNotWs (l : List Char) (h : headNotWs l = true) : trimL l = l := by
  cases l with
  | nil => rfl
  | cons c cs =>
    show List.dropWhile jsWs (c :: cs) = c :: cs
    rw [List.dropWhile_cons, if_neg (by simpa [headNotWs] using h)]

theorem trimR_of_lastNotWs (l : List Char) (h : lastNotWs l = true) : trimR l = l := by
  induction l with
  | nil => rfl
  | cons c cs ih =>
    cases cs with
    | nil =>
      rw [trimR.eq_2]
      rw [show trimR ([] : List Char) = [] from rfl]
      rw [if_neg (by simpa [lastNotWs] using h)]
    | cons d t =>
      rw [lastNotWs_cons] at h
      rw [trimR.eq_2, ih h]

theorem protectOn_noop (l : List Char) (h : noPair dBrk l = true) : protectOn l = l := by
  induction l with
  | nil => rfl
  | cons c cs ih =>
    rw [protectOn.eq_def]
    split
    · rename_i heq
      rw [heq] at h
      simp [noPair, dBrk] at h
    · rename_i heq
      injection heq with h1 h2
      subst h1
      subst h2
      rw [ih (noPair_tail _ _ _ h)]
    · rename_i heq
      exact absurd heq (by simp)

set_option maxHeartbeats 1600000 in
theorem protectOff_noop (l : List Char) (h : noPair dBrk l = true) : protectOff l = l := by
  induction l with
  | nil => rfl
  | cons c cs ih =>
    rw [protectOff.eq_def]
    split
    · rename_i heq
      rw [heq] at h
      simp [noPair, dBrk] at h
    · rename_i heq
      injection heq with h1 h2
      subst h1
      subst h2
      rw [ih (noPair_tail _ _ _ h)]
    · rename_i heq
      exact absurd heq (by simp)

theorem pre_pair (p1 p2 : Char) (pr l : List Char)
    (h : (p1 :: p2 :: pr).isPrefixOf l = true) : ∃ t, l = p1 :: p2 :: t := by
  cases l with
  | nil => simp [List.isPrefixOf] at h
  | cons c cs =>
    cases cs with
    | nil => simp [List.isPrefixOf] at h
    | cons d t =>
      simp only [List.isPrefixOf, Bool.and_eq_true_iff, beq_iff_eq] at h
      exact ⟨t, by rw [h.1, h.2.1]⟩

theorem restoreOn_noop (l : List Char) (h : noPair dUnd l = true) : restoreOn l = l := by
  show restoreOnAux l 0 = l
  induction l with
  | nil => rfl
  | cons c cs ih =>
    rw [restoreOnAux.eq_def]
    split
    · rename_i heq
      exact absurd heq (by simp)
    · rename_i heq
      injection heq with h1 h2
      subst h1
      subst h2
      rw [if_pos rfl]
      by_cases hpre : ("__RTF_B_ON__".toList).isPrefixOf (c :: cs) = true
      · obtain ⟨t, ht⟩ := pre_pair '_' '_' _ _ hpre
        rw [ht] at h
        simp [noPair, dUnd] at h
      · rw [if_neg hpre, ih (noPair_tail _ _ _ h)]

theorem restoreOff_noop (l : List Char) (h : noPair dUnd l = true) : restoreOff l = l := by
  show restoreOffAux l 0 = l
  induction l with
  | nil => rfl
  | cons c cs ih =>
    rw [restoreOffAux.eq_def]
    split
    · rename_i heq
      exact absurd heq (by simp)
    · rename_i heq
      injection heq with h1 h2
      subst h1
      subst h2
      rw [if_pos rfl]
      by_cases hpre : ("__RTF_B_OFF__".toList).isPrefixOf (c :: cs) = true
      · obtain ⟨t, ht⟩ := pre_pair '_' '_' _ _ hpre
        rw [ht] at h
        simp [noPair, dUnd] at h
      · rw [if_neg hpre, ih (noPair_tail _ _ _ h)]

theorem pass353_noop (l : List Char) (h : noPair bsB l = true) :
    pass353Aux l false = l := by
  induction l with
  | nil => rfl
  | cons c cs ih =>
    rw [pass353Aux.eq_def]
    split
    · rename_i heq
      exact absurd heq (by simp)
    · rename_i heq
      rw [heq] at h
      simp [noPair, bsB] at h
    · rename_i heq
      injection heq with h1 h2
      subst h1
      subst h2
      by_cases hws : jsWs c = true
      · rw [if_pos hws, if_neg (by simp), ih (noPair_tail _ _ _ h)]
      · rw [if_neg hws, ih (noPair_tail _ _ _ h)]

theorem pass354_noop (l : List Char) (h : noPair bsB l = true) :
    pass354Aux l false = l := by
  induction l with
  | nil => rfl
  | cons c cs ih =>
    rw [pass354Aux.eq_def]
    split
    · rename_i heq
      exact absurd heq (by simp)
    · rename_i heq
      rw [heq] at h
      simp [noPair, bsB] at h
    · rename_i heq
      injection heq with h1 h2
      subst h1
      subst h2
      by_cases hws : jsWs c = true
      · rw [if_pos hws, if_neg (by simp), ih (noPair_tail _ _ _ h)]
      · rw [if_neg hws, ih (noPair_tail _ _ _ h)]

theorem pass355_noop (l : List Char) (h : noPair bsB l = true) : pass355 l = l := by
  induction l with
  | nil => rfl
  | cons c cs ih =>
    rw [pass355.eq_def]
    split
    · rename_i heq
      rw [heq] at h
      simp [noPair, bsB] at h
    · rename_i heq
      injection heq with h1 h2
      subst h1
      subst h2
      rw [ih (noPair_tail _ _ _ h)]
    · rename_i heq
      exact absurd heq (by simp)

theorem pass356_noop (l : List Char) (h : noPair bsB l = true) : pass356 l = l := by
  induction l with
  | nil => rfl
  | cons c cs ih =>
    rw [pass356.eq_def]
    split
    · rename_i heq
      rw [heq] at h
      simp [noPair, bsB] at h
    · rename_i heq
      injection heq with h1 h2
      subst h1
      subst h2
      rw [ih (noPair_tail _ _ _ h)]
    · rename_i heq
      exact absurd heq (by simp)

theorem pass357_noop (l : List Char) (h : noPair bsB l = true) : pass357 l = l := by
  induction l with
  | nil => rfl
  | cons c cs ih =>
    rw [pass357.eq_def]
    split
    · rename_i heq
      rw [heq] at h
      simp [noPair, bsB] at h
    · rename_i heq
      injection heq with h1 h2
      subst h1
      subst h2
      rw [ih (noPair_tail _ _ _ h)]
    · rename_i heq
      exact absurd heq (by simp)

theorem pass358_noop (l : List Char) (h : noPair bsB l = true) : pass358 l = l := by
  induction l with
  | nil => rfl
  | cons c cs ih =>
    rw [pass358.eq_def]
    split
    · rename_i heq
      rw [heq] at h
      simp [noPair, bsB] at h
    · rename_i heq
      injection heq with h1 h2
      subst h1
      subst h2
      rw [ih (noPair_tail _ _ _ h)]
    · rename_i heq
      exact absurd heq (by simp)

theorem pass359_noop (l : List Char) (h : noPair bsB l = true) : pass359 l = l := by
  induction l with
  | nil => rfl
  | cons c cs ih =>
    rw [pass359.eq_def]
    split
    · rename_i heq
      rw [heq] at h
      simp [noPair, bsB] at h
    · rename_i heq
      injection heq with h1 h2
      subst h1
      subst h2
      rw [ih (noPair_tail _ _ _ h)]
    · rename_i heq
      exact absurd heq (by simp)

theorem pass360_noop (l : List Char) (h : noPair bsB l = true) : pass360 l = l := by
  induction l with
  | nil => rfl
  | cons c cs ih =>
    rw [pass360.eq_def]
    split
    · rename_i heq
      rw [heq] at h
      simp [noPair, bsB] at h
    · rename_i heq
      injection heq with h1 h2
      subst h1
      subst h2
      rw [ih (noPair_tail _ _ _ h)]
    · rename_i heq
      exact absurd heq (by simp)

theorem escapeRtfText_eq_escapeCtrl (s : List Char)
    (hbrk : noPair dBrk s = true) (hund : noPair dUnd s = true)
    (hbb : noPair bsB s = true) (hsp : noPair dblSp s = true)
    (hhd : headNotWs s = true) (hlast : lastNotWs s = true)
    (hascii : ∀ c ∈ s, c.toNat ≤ 127) :
    escapeRtfText s false = escapeCtrl s := by
  have e1 : protectOff (protectOn s) = s := by
    rw [protectOn_noop s hbrk, protectOff_noop s hbrk]
  have hE_nd : noPair dblSp (escapeCtrl s) = true := by
    refine noPair_escapeCtrl dblSp (fun a => by simp [dblSp]) ?_ s hsp
    intro a c hc
    rcases isSpecial_cases c hc with rfl | rfl | rfl <;> simp [dblSp]
  have hE_uu : noPair dUnd (escapeCtrl s) = true := by
    refine noPair_escapeCtrl dUnd (fun a => by simp [dUnd]) ?_ s hund
    intro a c hc
    rcases isSpecial_cases c hc with rfl | rfl | rfl <;> simp [dUnd]
  have hE_bb : noPair bsB (escapeCtrl s) = true := by
    refine noPair_escapeCtrl bsB (fun a => by simp [bsB]) ?_ s hbb
    intro a c hc
    rcases isSpecial_cases c hc with rfl | rfl | rfl <;> simp [bsB]
  have hE_trim : trimBoth (collapseSpaces (escapeCtrl s)) = escapeCtrl s := by
    rw [show collapseSpaces (escapeCtrl s) = escapeCtrl s from (collapse_id _ hE_nd).1]
    show trimR (trimL _) = _
    rw [trimL_of_headNotWs _ (headNotWs_escapeCtrl s hhd),
      trimR_of_lastNotWs _ (lastNotWs_escapeCtrl s hlast)]
  have hstart : escapeRtfText s false
      = trimBoth (collapseSpaces (pass360 (pass359 (pass358 (pass357 (pass356 (pass355
        (pass354Aux (pass353Aux (restoreOff (restoreOn (trimBoth (collapseSpaces
        (keepAscii (escapeCtrl (protectOff (protectOn s)))))))) false) false)))))))) := rfl
  rw [hstart, e1, keepAscii_escapeCtrl s hascii, hE_trim,
    restoreOn_noop _ hE_uu, restoreOff_noop _ hE_uu,
    pass353_noop _ hE_bb, pass354_noop _ hE_bb, pass355_noop _ hE_bb,
    pass356_noop _ hE_bb, pass357_noop _ hE_bb, pass358_noop _ hE_bb,
    pass359_noop _ hE_bb, pass360_noop _ hE_bb, hE_trim]

/-- C8, amended: the claim as stated is false (see `escape_roundtrip_cex`:
a backslash immediately followed by the letter `b` is taken for a bold
control word by the cleanup passes of lines 353-360, which insert a space).
What holds: for every plain-text body that contains no `[[`, no `__`, no
backslash immediately followed by `b`, no doubled space, no leading or
trailing whitespace, and only ASCII characters, running it through the
Re-Emitter's escaping (without the uppercase option) yields exactly the
control-character escaping `\\`/`\x7b`/`\x7d` of the body, and reversing the
three literal-escape rules reproduces the original body exactly; such a body
may contain literal backslashes and braces. -/
theorem escapeRtf_roundtrip (s : List Char)
    (hbrk : noPair dBrk s = true) (hund : noPair dUnd s = true)
    (hbb : noPair bsB s = true) (hsp : noPair dblSp s = true)
    (hhd : headNotWs s = true) (hlast : lastNotWs s = true)
    (hascii : ∀ c ∈ s, c.toNat ≤ 127) :
    unescapeRtf (escapeRtfText s false) = s := by
  rw [escapeRtfText_eq_escapeCtrl s hbrk hund hbb hsp hhd hlast hascii,
    unescape_escapeCtrl]

/-- Witness for `escapeRtf_roundtrip` at the body `x\x7by\x7d\z`, which
contains a literal backslash and both literal braces. -/
theorem escapeRtf_roundtrip_witness :
    unescapeRtf (escapeRtfText ("x\x7by\x7d\\z".toList) false) = "x\x7by\x7d\\z".toList :=
  escapeRtf_roundtrip ("x\x7by\x7d\\z".toList) (by decide) (by decide) (by decide)
    (by decide) (by decide) (by decide) (by decide)

end SanitizeRtf
